import Mathlib

/-!
# heroonprem: config resolution, rule matching and script rendering

A shallow embedding of `hero.go`.  Go strings are lists of characters
(`Str`); every separator the program looks at (`/`, newline) is a single
ASCII character, so splitting by characters and splitting by bytes agree.
Everything the program obtains from outside the package (file system,
working directory, clock, YAML parser, regular expressions, the
`text/template` engine for the user's command templates, the `sbatch`
process) is a field of `Env`.
-/

set_option autoImplicit false

namespace Heroonprem

/-- Go `string`. -/
abbrev Str := List Char

/-- Outcome of a Go function returning `(T, error)`:
`ok v` is `(v, nil)`, `err e` is `(zero, e)`, `panic` is a run-time panic. -/
inductive Res (α : Type) where
  | ok (v : α)
  | err (e : Str)
  | panic
  deriving DecidableEq, Repr

/-! ## Standard-library functions used by the program -/

namespace strings

/-- Go `strings.Split(s, sep)` for a one-character separator: the pieces of `s`
between occurrences of `sep`; a string without separator gives one piece. -/
def Split (s : Str) (sep : Char) : List Str :=
  match s with
  | [] => [[]]
  | c :: cs =>
    if c = sep then [] :: Split cs sep
    else
      match Split cs sep with
      | [] => [[c]]
      | w :: ws => (c :: w) :: ws

/-- Go `strings.Join(elems, sep)`. -/
def Join (elems : List Str) (sep : Str) : Str :=
  match elems with
  | [] => []
  | [e] => e
  | e :: es => e ++ (sep ++ Join es sep)

/-- Go `strings.HasPrefix(s, p)`. -/
def HasPrefix (s p : Str) : Bool := p.isPrefixOf s

end strings

namespace filepath

/-- One step of `filepath.Clean` on the element `elem`; `stack` holds the
elements kept so far, the most recent first.  Empty and `.` elements are
dropped; `..` removes the most recent real element, is kept when there is
none and the path is not rooted, and is dropped at the root. -/
def cleanStep (rooted : Bool) (stack : List Str) (elem : Str) : List Str :=
  if elem = [] ∨ elem = ['.'] then stack
  else if elem = ['.', '.'] then
    match stack with
    | [] => if rooted then [] else [['.', '.']]
    | top :: rest =>
      if top = ['.', '.'] then (if rooted then stack else ['.', '.'] :: stack)
      else rest
  else elem :: stack

/-- The elements `filepath.Clean` keeps, in path order. -/
def cleanElems (rooted : Bool) (elems : List Str) : List Str :=
  (elems.foldl (cleanStep rooted) []).reverse

/-- Go `filepath.Clean` (Unix): the shortest equivalent path by lexical
processing; the empty result is written `.`. -/
def Clean (path : Str) : Str :=
  let rooted := path.head? = some '/'
  let body := strings.Join (cleanElems rooted (strings.Split path '/')) ['/']
  if rooted then '/' :: body
  else if body = [] then ['.'] else body

/-- Go `filepath.Join`: the elements from the first non-empty one on, joined by
the separator and cleaned; the empty string when all are empty. -/
def Join : List Str → Str
  | [] => []
  | e :: es => if e = [] then Join es else Clean (strings.Join (e :: es) ['/'])

/-- Go `filepath.Dir`: everything up to and including the last separator,
cleaned. -/
def Dir (path : Str) : Str :=
  Clean (path.rdropWhile (fun c => c != '/'))

/-- An element that names a file or directory: not empty, not `.`, not `..`. -/
def plain (elem : Str) : Bool :=
  elem != [] && elem != ['.'] && elem != ['.', '.']

/-- The path lies under the directory, lexically: it is the cleaned directory
followed by a separator and by one or more elements separated by single
separators, all of them names (none empty, `.` or `..`).  When the cleaned
directory is `/` or `.` the separator after it is not written. -/
def under (dir path : Str) : Bool :=
  let d := Clean dir
  let rel : Option Str :=
    if d = ['/'] then (if path.head? = some '/' then some path.tail else none)
    else if d = ['.'] then some path
    else if (d ++ ['/']).isPrefixOf path then some (path.drop (d.length + 1))
    else none
  match rel with
  | none => false
  | some rel => (strings.Split rel '/').all plain

/-- Go `filepath.IsAbs` (Unix). -/
def IsAbs (path : Str) : Bool := strings.HasPrefix path ['/']

/-- Go `filepath.Abs`: an absolute path is cleaned, a relative one is joined to
the working directory; fails when the working directory is not available. -/
def Abs (getwd : Except Str Str) (path : Str) : Except Str Str :=
  if IsAbs path then .ok (Clean path)
  else
    match getwd with
    | .error e => .error e
    | .ok wd => .ok (Join [wd, path])

end filepath

/-- Decimal text of a Go integer (`%d`, and how `text/template` prints an
integer field). -/
def decimal (n : Int) : Str := (toString n).toList

/-! ## Data model -/

/-- HeroGlobalConfig base config for library. -/
structure HeroGlobalConfig where
  ScriptDir : Str
  deriving DecidableEq, Repr

abbrev METHOD := Str

def FILE_ADD : METHOD := "add".toList
def FILE_EDIT : METHOD := "edit".toList
def FILE_DELETE : METHOD := "delete".toList

def NewHeroGlobalConfig (dir : Str) : HeroGlobalConfig :=
  if dir = [] then { ScriptDir := "/tmp".toList } else { ScriptDir := dir }

/-- One experiment of a `.hero` file.  `Methods` nil and `Methods` empty are
the same list; `Cpus` and `Mem` are `int64` in the source. -/
structure HeroJob where
  Methods : List METHOD := []
  Rules : List Str := []
  Scripts : List Str := []
  Cpus : Int := 0
  Mem : Int := 0
  Time : Str := []
  Queue : Str := []
  deriving DecidableEq, Repr

/-- The `hero` map of a `.hero` file, as the list of its entries in the order
in which the `range` loop of the current call visits them. -/
structure HeroConfig where
  Hero : List (Str × HeroJob)
  deriving DecidableEq, Repr

structure HeroUser where
  Name : Str
  UID : Nat
  GID : Nat
  Home : Str
  deriving DecidableEq, Repr

/-- Render context of the script template; `User` is a pointer in the source
(`none` is nil). -/
structure HeroExperiment where
  User : Option HeroUser
  Experiment : Str
  Created : Str
  File : Str
  BaseDir : Str
  Scripts : List Str
  Cpus : Int
  Mem : Int
  Queue : Str
  Time : Str
  Method : METHOD

/-- What the program obtains from outside the package. -/
structure Env where
  /-- Go `os.Getwd`. -/
  getwd : Except Str Str
  /-- Whether `os.Stat` succeeds on the file with this absolute path. -/
  stat : Str → Bool
  /-- Result of `ioutil.ReadFile` on the file with this absolute path. -/
  readFile : Str → Except Str Str
  /-- Result of `yaml.Unmarshal` into a `HeroConfig`. -/
  yaml : Str → Except Str HeroConfig
  /-- Result of `regexp.Compile` on a pattern: `none` when the pattern is
  malformed, otherwise the `Match` predicate of the compiled expression. -/
  regexp : Str → Option (Str → Bool)
  /-- Result of parsing a command template (`template.New("file").Parse`) and
  executing it on a `ScriptData` with the given `File`. -/
  template : Str → Str → Except Str Str
  /-- Go `time.Now().String()` of the call in `getScript`. -/
  now : Str
  /-- Go `time.Now().Unix()` of the call in `CreateJob`. -/
  unix : Int
  /-- Error of `ioutil.WriteFile(name, data, 0755)` on the file with this
  absolute path, `none` when the write succeeds. -/
  writeFile : Str → Str → Option Str
  /-- Error of running `sbatch` on the script, `none` when it exits with
  status 0. -/
  sbatch : Str → Option Str

/-- The absolute path the operating system resolves a file name to. -/
def Env.resolve (env : Env) (name : Str) : Option Str :=
  if filepath.IsAbs name then some name
  else
    match env.getwd with
    | .ok wd => some (filepath.Join [wd, name])
    | .error _ => none

/-- The test `_, err := os.Stat(name); err == nil`. -/
def Env.statOK (env : Env) (name : Str) : Bool :=
  match env.resolve name with
  | some p => env.stat p
  | none => false

/-- Go `ioutil.ReadFile(name)`. -/
def Env.read (env : Env) (name : Str) : Except Str Str :=
  match env.resolve name with
  | some p => env.readFile p
  | none => .error "getwd failed".toList

/-- Go `ioutil.WriteFile(name, data, 0755)`: its error, if any. -/
def Env.write (env : Env) (name data : Str) : Option Str :=
  match env.resolve name with
  | some p => env.writeFile p data
  | none => some "getwd failed".toList

/-! ## getJobConfig -/

/-- The loop of `getJobConfig` (lines 128-137) when `filePaths` holds the first
`k` elements of `parts`: the first existing `.hero` path, from the longest
element list to the shortest, or the empty string. -/
def getJobConfig.walk (env : Env) (parts : List Str) : Nat → Str
  | 0 => []
  | k + 1 =>
    let heroCfg := filepath.Join [strings.Join (parts.take (k + 1)) ['/'], ".hero".toList]
    if env.statOK heroCfg then heroCfg else getJobConfig.walk env parts k

/-- The value of `heroCfgFile` at line 146 of `getJobConfig`: the
configuration file that is read, or `none` where the function returns
"no .hero found". -/
def getJobConfig.locate (env : Env) (file : Str) (user : HeroUser) : Option Str :=
  let heroCfg := filepath.Join [user.Home, ".hero".toList]
  let heroHomeCfgFile : Str := if env.statOK heroCfg then heroCfg else []
  let baseDir := filepath.Dir file
  let filePaths := strings.Split baseDir '/'
  let heroCfgFile := getJobConfig.walk env filePaths filePaths.length
  if heroCfgFile = [] ∧ heroHomeCfgFile = [] then none
  else if heroCfgFile = [] then some heroHomeCfgFile
  else some heroCfgFile

def getJobConfig (env : Env) (file : Str) (user : Option HeroUser) : Res HeroConfig :=
  match user with
  | none => .panic
  | some u =>
    match getJobConfig.locate env file u with
    | none => .err "no .hero found".toList
    | some heroCfgFile =>
      match env.read heroCfgFile with
      | .error e => .err e
      | .ok data =>
        match env.yaml data with
        | .error e => .err e
        | .ok heroConfig => .ok heroConfig

/-! ## getScripts, getScript -/

/-- Concatenation of the pieces a template writes, in order. -/
def cat : List Str → Str
  | [] => []
  | p :: ps => p ++ cat ps

/-- Output of `{{if pipeline}} body {{end}}`. -/
def tIf (c : Bool) (body : Str) : Str := if c then body else []

/-- Output of the `{{range .Scripts}} ... {{end}}` block of `scriptTemplate`
(lines 109-114). -/
def scriptTemplate.range : List Str → Str
  | [] => []
  | s :: ss =>
    cat [ "\n".toList,
          "echo \"########################\"\n".toList,
          "date\n".toList,
          "echo \"########################\"\n".toList,
          s, "\n".toList,
          scriptTemplate.range ss ]

/-- What executing the parsed `scriptTemplate` (lines 74-115) on `exp` writes.
One list item per text run or action of the template, grouped by source line.
A string is true in `if` when non-empty, an integer when non-zero; a nil
`User` makes the field access `.User.UID` fail. -/
def scriptTemplate (exp : HeroExperiment) : Except Str Str :=
  match exp.User with
  | none => .error "nil pointer evaluating *heroonprem.HeroUser.UID".toList
  | some user =>
    .ok (cat [
      "#!/bin/bash\n".toList,
      "#SBATCH --job-name=".toList, exp.Experiment, "\n".toList,
      "#SBATCH -e ".toList, exp.BaseDir, "/".toList, exp.Experiment, "-%j.err\n".toList,
      "#SBATCH -o ".toList, exp.BaseDir, "/".toList, exp.Experiment, "-%j.out\n".toList,
      "#SBATCH --uid ".toList, decimal user.UID, "\n".toList,
      "#SBATCH --uid ".toList, decimal user.GID, "\n".toList,
      "\n".toList,
      "#SBATCH --chdir ".toList, exp.BaseDir, "\n".toList,
      tIf (exp.Queue != []) (cat ["\n".toList,
        "#SBATCH --partition=".toList, exp.Queue, "\n".toList]),
      "\n".toList,
      tIf (exp.Cpus != 0) (cat ["\n".toList,
        "#SBATCH --cpus-per-task=".toList, decimal exp.Cpus, "\n".toList]),
      "\n".toList,
      tIf (exp.Mem != 0) (cat ["\n".toList,
        "#SBATCH --mem=".toList, decimal exp.Mem, "G\n".toList]),
      "\n".toList,
      tIf (exp.Time != []) (cat ["\n".toList,
        "#SBATCH --time=".toList, exp.Time, "\n".toList]),
      "\n".toList,
      "set -e\n".toList,
      "# User: ".toList, user.Name, "\n".toList,
      "# File: ".toList, exp.File, "\n".toList,
      "# Experiment: ".toList, exp.Experiment, "\n".toList,
      "# Date: ".toList, exp.Created, "\n".toList,
      "export FILE=".toList, exp.File, "\n".toList,
      "export WORKDIR=".toList, exp.BaseDir, "\n".toList,
      "export METHOD=".toList, exp.Method, "\n".toList,
      "echo \"########################\"\n".toList,
      "date\n".toList,
      "echo \"########################\"\n".toList,
      "if [ ! -e $FILE ]; then\n".toList,
      "    echo \"File $FILE not found\"\n".toList,
      "    exit 1\n".toList,
      "fi\n".toList,
      scriptTemplate.range exp.Scripts,
      "\n".toList ])

/-- The loop of `getScripts`: every command template rendered with the file,
in order; the first failure ends the loop. -/
def getScripts.loop (env : Env) (file : Str) : List Str → Res (List Str)
  | [] => .ok []
  | script :: rest =>
    match env.template script file with
    | .error e => .err e
    | .ok data =>
      match getScripts.loop env file rest with
      | .ok scripts => .ok (data :: scripts)
      | .err e => .err e
      | .panic => .panic

def getScripts (env : Env) (file : Str) (_experiment : Str) (job : HeroJob) : Res (List Str) :=
  getScripts.loop env file job.Scripts

def getScript (env : Env) (method : METHOD) (file : Str) (experiment : Str) (job : HeroJob)
    (user : Option HeroUser) : Res Str :=
  match getScripts env file experiment job with
  | .err e => .err e
  | .panic => .panic
  | .ok scripts =>
    let exp : HeroExperiment :=
      { User := user
        Experiment := experiment
        Created := env.now
        File := file
        Scripts := scripts
        Cpus := job.Cpus
        Mem := job.Mem
        Time := job.Time
        Queue := job.Queue
        BaseDir := filepath.Dir file
        Method := method }
    match scriptTemplate exp with
    | .error e => .err e
    | .ok data => .ok data

/-! ## CreateJob -/

/-- The loop over `exp.Rules` (lines 265-273): `ok true` when a rule matches
the path (the loop breaks there), `ok false` when none does, `panic` when
`regexp.MustCompile` meets a malformed pattern before a match. -/
def CreateJob.rules (env : Env) (fullPath : Str) : List Str → Res Bool
  | [] => .ok false
  | r :: rest =>
    match env.regexp r with
    | none => .panic
    | some re => if re fullPath then .ok true else CreateJob.rules env fullPath rest

/-- The value of `methodOK` at line 262; the source only logs it. -/
def CreateJob.methodOK (method : METHOD) (exp : HeroJob) : Bool :=
  (exp.Methods == [] && method == FILE_ADD) || exp.Methods.any (fun m => m == method)

/-- The loop over `jcfg.Hero` (lines 247-274) on the entries still to visit,
`sel` being the current values of `experiment` and `job`. -/
def CreateJob.loop (env : Env) (method : METHOD) (fullPath : Str) :
    List (Str × HeroJob) → Str × HeroJob → Res (Str × HeroJob)
  | [], sel => .ok sel
  | (name, exp) :: rest, sel =>
    if exp.Methods = [] ∧ method ≠ FILE_ADD then
      CreateJob.loop env method fullPath rest sel
    else
      let _methodOK := CreateJob.methodOK method exp
      match CreateJob.rules env fullPath exp.Rules with
      | .panic => .panic
      | .err e => .err e
      | .ok true => CreateJob.loop env method fullPath rest (name, exp)
      | .ok false => CreateJob.loop env method fullPath rest sel

/-- The values of `experiment` and `job` after the loop of `CreateJob`
(line 275), starting from `experiment := ""` and the zero `HeroJob`. -/
def CreateJob.select (env : Env) (method : METHOD) (fullPath : Str) (jcfg : HeroConfig) :
    Res (Str × HeroJob) :=
  CreateJob.loop env method fullPath jcfg.Hero ([], {})

/-- Lines 281-289 of `CreateJob`: render the script of the selected
experiment, name the script file, write it (the result of the write is not
looked at) and return the name. -/
def CreateJob.emit (env : Env) (method : METHOD) (fullPath : Str) (experiment : Str)
    (job : HeroJob) (user : Option HeroUser) (cfg : Option HeroGlobalConfig) : Res Str :=
  match getScript env method fullPath experiment job user with
  | .panic => .panic
  | .err e => .err e
  | .ok script =>
    match cfg with
    | none => .panic
    | some cfg =>
      let ts := env.unix
      let scriptName :=
        filepath.Join [cfg.ScriptDir, experiment ++ "_".toList ++ decimal ts ++ ".sh".toList]
      let _ := env.write scriptName script
      .ok scriptName

/-- CreateJob creates a bash script for slurm use. -/
def CreateJob (env : Env) (file : Str) (method : METHOD) (user : Option HeroUser)
    (cfg : Option HeroGlobalConfig) : Res Str :=
  match filepath.Abs env.getwd file with
  | .error e => .err e
  | .ok fullPath =>
    match getJobConfig env fullPath user with
    | .panic => .panic
    | .err _ => .ok []
    | .ok jcfg =>
      match CreateJob.select env method fullPath jcfg with
      | .panic => .panic
      | .err e => .err e
      | .ok (experiment, job) =>
        if experiment = [] then .ok []
        else CreateJob.emit env method fullPath experiment job user cfg

/-! ## CallJob -/

/-- How a call of `CallJob` ends: with an error returned before any command is
run, or after running `sbatch` on `script` with the error of that run (`none`
is the nil error), or in a panic. -/
inductive CallResult where
  | refused (e : Str)
  | ran (script : Str) (e : Option Str)
  | panic
  deriving DecidableEq, Repr

def CallJob (env : Env) (script : Str) (_user : HeroUser) (cfg : Option HeroGlobalConfig) :
    CallResult :=
  match filepath.Abs env.getwd script with
  | .error e => .refused e
  | .ok scriptRealPath =>
    match cfg with
    | none => .panic
    | some cfg =>
      if !strings.HasPrefix scriptRealPath cfg.ScriptDir then
        .refused ("script not in ".toList ++ cfg.ScriptDir)
      else
        .ran scriptRealPath (env.sbatch scriptRealPath)

/-! ## A concrete environment for the examples -/

/-- The regular expressions used in the examples, with the behaviour the Go
`regexp` package has on them: `\.csv$` and `\.txt$` match a path with that
ending, `.` matches a path holding a character other than newline, and `(`
is malformed (missing closing parenthesis).  No other pattern is used; the
table gives `none` for it. -/
def sampleRegexp (pattern : Str) : Option (Str → Bool) :=
  if pattern = "\\.csv$".toList then some (fun s => ".csv".toList.isSuffixOf s)
  else if pattern = "\\.txt$".toList then some (fun s => ".txt".toList.isSuffixOf s)
  else if pattern = ".".toList then some (fun s => s.any (fun c => c != '\n'))
  else none

/-- Helper of `sampleTemplate`: `skip` characters of the action being replaced
are still to be dropped. -/
def sampleTemplate.go (file : Str) : Nat → Str → Except Str Str
  | _, [] => .ok []
  | skip + 1, _ :: cs => sampleTemplate.go file skip cs
  | 0, c :: cs =>
    if "\x7b\x7b.File\x7d\x7d".toList.isPrefixOf (c :: cs) then
      match sampleTemplate.go file 8 cs with
      | .ok out => .ok (file ++ out)
      | .error e => .error e
    else if "\x7b\x7b".toList.isPrefixOf (c :: cs) then
      .error "template: action outside the examples".toList
    else
      match sampleTemplate.go file 0 cs with
      | .ok out => .ok (c :: out)
      | .error e => .error e

/-- The command templates used in the examples, with the behaviour
`text/template` has on them: text is copied and the action `.File` between
double braces is replaced by the file path.  No other action is used; the
function fails on it. -/
def sampleTemplate (script file : Str) : Except Str Str :=
  sampleTemplate.go file 0 script

/-- An environment with working directory `cwd`, the given regular files
(absolute path and content) and the given parse results of file contents;
every write and every `sbatch` run succeeds; the clock reads
2023-11-14 22:13:20 UTC. -/
def sampleEnv (cwd : Str) (files : List (Str × Str)) (parsed : List (Str × HeroConfig)) : Env where
  getwd := .ok cwd
  stat := fun p => (files.lookup p).isSome
  readFile := fun p =>
    match files.lookup p with
    | some data => .ok data
    | none => .error "open: no such file or directory".toList
  yaml := fun data =>
    match parsed.lookup data with
    | some c => .ok c
    | none => .error "yaml: unmarshal errors".toList
  regexp := sampleRegexp
  template := sampleTemplate
  now := "2023-11-14 22:13:20 +0000 UTC".toList
  unix := 1700000000
  writeFile := fun _ _ => none
  sbatch := fun _ => none

/-- The user of the examples. -/
def alice : HeroUser :=
  { Name := "alice".toList, UID := 1000, GID := 1000, Home := "/home/alice".toList }

/-- The script directory `NewHeroGlobalConfig("")` gives: `/tmp`. -/
def tmpCfg : HeroGlobalConfig := NewHeroGlobalConfig []

/-! ## Notions used to state the claims -/

/-- The experiment `CreateJob` goes on with after its loop: `experiment` and
`job` at line 279, where `experiment` is not the empty string. -/
def CreateJob.selects (env : Env) (method : METHOD) (fullPath : Str) (jcfg : HeroConfig)
    (name : Str) (exp : HeroJob) : Prop :=
  CreateJob.select env method fullPath jcfg = .ok (name, exp) ∧ name ≠ []

/-- The empty-methods check of lines 249-253 skips the entry. -/
def CreateJob.skipped (method : METHOD) (exp : HeroJob) : Bool :=
  exp.Methods == [] && method != FILE_ADD

/-- The pattern is well-formed and matches the path. -/
def CreateJob.ruleMatches (env : Env) (fullPath : Str) (r : Str) : Bool :=
  match env.regexp r with
  | some re => re fullPath
  | none => false

/-- The entries that are not skipped by the empty-methods check and have a
rule matching the path, in visiting order. -/
def CreateJob.matching (env : Env) (method : METHOD) (fullPath : Str)
    (entries : List (Str × HeroJob)) : List (Str × HeroJob) :=
  entries.filter fun e =>
    !CreateJob.skipped method e.2 && e.2.Rules.any (CreateJob.ruleMatches env fullPath)

/-- An element `filepath.Clean` can keep: not empty, not `.`, without
separator. -/
def filepath.Kept (elem : Str) : Prop := elem ≠ [] ∧ elem ≠ ['.'] ∧ '/' ∉ elem

/-- The absolute path with the given elements: `/a/b` for `a`, `b`. -/
def filepath.ofElems (elems : List Str) : Str := '/' :: strings.Join elems ['/']

/-! ## Example inputs -/

/-- Experiment `e1` reacting to `edit` only, for files ending in `.csv`. -/
def editOnlyJob : HeroJob :=
  { Methods := [FILE_EDIT], Rules := ["\\.csv$".toList], Scripts := ["echo changed".toList] }

/-- Text of a `.hero` file declaring `editOnlyJob` as `e1`. -/
def editOnlyText : Str :=
  "hero:\n  e1:\n    methods: [edit]\n    rules: ['\\.csv$']\n    scripts: ['echo changed']\n".toList

/-- Working directory `/srv`; `/data/.hero` declares `e1` with
`methods: [edit]`. -/
def editOnlyEnv : Env :=
  sampleEnv "/srv".toList [("/data/.hero".toList, editOnlyText)]
    [(editOnlyText, { Hero := [("e1".toList, editOnlyJob)] })]

/-- Experiment for every file, without `methods`. -/
def anyFileJob : HeroJob :=
  { Rules := [".".toList], Scripts := ["echo hello".toList] }

/-- Text of a `.hero` file declaring `anyFileJob` under the given name. -/
def anyFileText (name : Str) : Str :=
  "hero:\n  ".toList ++ name ++ ":\n    rules: ['.']\n    scripts: ['echo hello']\n".toList

/-- Working directory `/srv`; a `.hero` file in the root directory declares
experiment `root`, one in the home of `alice` declares experiment `home`;
there is no other `.hero` file. -/
def rootAndHomeEnv : Env :=
  sampleEnv "/srv".toList
    [("/.hero".toList, anyFileText "root".toList),
     ("/home/alice/.hero".toList, anyFileText "home".toList)]
    [(anyFileText "root".toList, { Hero := [("root".toList, anyFileJob)] }),
     (anyFileText "home".toList, { Hero := [("home".toList, anyFileJob)] })]

/-- As `editOnlyEnv`, but `/data/.hero` cannot be read. -/
def unreadableEnv : Env :=
  { editOnlyEnv with readFile := fun _ => .error "open /data/.hero: permission denied".toList }

/-- Working directory `/srv`; `/data/.hero` exists and its content is not
well-formed YAML. -/
def malformedEnv : Env :=
  sampleEnv "/srv".toList [("/data/.hero".toList, "hero: [".toList)] []

/-- Working directory `/srv`; `/data/.hero` declares experiment `e1` for every
file. -/
def anyFileEnv : Env :=
  sampleEnv "/srv".toList [("/data/.hero".toList, anyFileText "e1".toList)]
    [(anyFileText "e1".toList, { Hero := [("e1".toList, anyFileJob)] })]

/-- As `anyFileEnv`, but every write fails. -/
def diskFullEnv : Env :=
  { anyFileEnv with writeFile := fun _ _ => some "write: no space left on device".toList }

/-- Working directory `/srv`; the only `.hero` file is `/data/.hero`, and its
content parses to `jcfg`, whose entries the loop visits in the order of the
list. -/
def dataEnv (jcfg : HeroConfig) : Env :=
  sampleEnv "/srv".toList [("/data/.hero".toList, "# /data/.hero".toList)]
    [("# /data/.hero".toList, jcfg)]

/-- Experiment for files ending in `.csv`, without `methods`. -/
def csvJob : HeroJob :=
  { Rules := ["\\.csv$".toList], Scripts := ["validate \x7b\x7b.File\x7d\x7d".toList] }

/-- Experiment whose first rule is malformed and whose second rule matches
files ending in `.csv`. -/
def malformedFirstJob : HeroJob :=
  { Rules := ["(".toList, "\\.csv$".toList], Scripts := ["echo hello".toList] }

/-- Experiment with rules for `.txt` and `.csv` files, in this order. -/
def txtOrCsvJob : HeroJob :=
  { Rules := ["\\.txt$".toList, "\\.csv$".toList], Scripts := ["echo hello".toList] }

/-- Experiment without `queue` whose command is the text of a partition
directive. -/
def directiveInCommandJob : HeroJob :=
  { Rules := ["\\.csv$".toList], Scripts := ["#SBATCH --partition=gpu".toList] }

/-- Experiment with `queue: gpu` and `mem: 4`, without `cpus` and `time`. -/
def gpuJob : HeroJob :=
  { Rules := ["\\.csv$".toList], Scripts := ["validate \x7b\x7b.File\x7d\x7d".toList],
    Mem := 4, Queue := "gpu".toList }

/-- Working directory `/srv`; `/data/.hero` declares one experiment for `.csv`
files under the name `../etc/e1`. -/
def dotdotNameEnv : Env :=
  dataEnv { Hero := [("../etc/e1".toList, csvJob)] }

/-! ## Lines of a script -/

/-- The lines of a text: its pieces between newline characters. -/
def lines (s : Str) : List Str := strings.Split s '\n'

/-- The lines of the text that begin with `p`, in order. -/
def directiveLines (p : Str) (s : Str) : List Str :=
  (lines s).filter fun l => p.isPrefixOf l

/-- A part of a line of the script template: literal template text, or the
text of a value substituted by an action. -/
inductive Piece where
  | lit (s : Str)
  | val (s : Str)

def Piece.text : Piece → Str
  | .lit s => s
  | .val s => s

/-- The text of a line given by its pieces, followed by `tail`. -/
def lineText : List Piece → Str → Str
  | [], tail => tail
  | p :: ps, tail => p.text ++ lineText ps tail

/-- The text of the given lines, each ended by a newline, followed by
`tail`. -/
def unlines : List (List Piece) → Str → Str
  | [], tail => tail
  | l :: ls, tail => lineText l ('\n' :: unlines ls tail)

/-- Whether the line begins with `p`, as far as its literal pieces decide it:
`none` when the answer depends on a substituted value. -/
def startsWith? : Str → List Piece → Option Bool
  | [], _ => some true
  | _ :: _, [] => some false
  | _ :: _, .val _ :: _ => none
  | c :: p, .lit s :: rest =>
    if (c :: p).isPrefixOf s then some true
    else if s.isPrefixOf (c :: p) then startsWith? ((c :: p).drop s.length) rest
    else some false

/-- No literal piece of the line holds a newline. -/
def litsOneLine : List Piece → Bool
  | [] => true
  | .lit s :: ps => s.all (fun c => c != '\n') && litsOneLine ps
  | .val _ :: ps => litsOneLine ps

/-- The substituted values of the line. -/
def lineVals : List Piece → List Str
  | [] => []
  | .lit _ :: ps => lineVals ps
  | .val s :: ps => s :: lineVals ps

/-- The substituted values of the lines. -/
def allVals : List (List Piece) → List Str
  | [] => []
  | l :: ls => lineVals l ++ allVals ls

/-- The lines among `ls` that begin with `p`, when the literal pieces decide
it for every line and hold no newline. -/
def hits (p : Str) : List (List Piece) → Option (List Str)
  | [] => some []
  | l :: ls =>
    match startsWith? p l, litsOneLine l, hits p ls with
    | some b, true, some hs => some (if b then lineText l [] :: hs else hs)
    | _, _, _ => none

/-- The lines `scriptTemplate` writes before the `range` block, the last of
them being `fi`; `q`, `c`, `m` and `t` tell which of the four `if` blocks are
written. -/
def templateLines (q c m t : Bool) (user : HeroUser) (exp : HeroExperiment) : List (List Piece) :=
  [ [.lit "#!/bin/bash".toList],
    [.lit "#SBATCH --job-name=".toList, .val exp.Experiment],
    [.lit "#SBATCH -e ".toList, .val exp.BaseDir, .lit "/".toList, .val exp.Experiment,
      .lit "-%j.err".toList],
    [.lit "#SBATCH -o ".toList, .val exp.BaseDir, .lit "/".toList, .val exp.Experiment,
      .lit "-%j.out".toList],
    [.lit "#SBATCH --uid ".toList, .val (decimal user.UID)],
    [.lit "#SBATCH --uid ".toList, .val (decimal user.GID)],
    [],
    [.lit "#SBATCH --chdir ".toList, .val exp.BaseDir] ] ++
  (if q then [[], [.lit "#SBATCH --partition=".toList, .val exp.Queue]] else []) ++
  [[]] ++
  (if c then [[], [.lit "#SBATCH --cpus-per-task=".toList, .val (decimal exp.Cpus)]] else []) ++
  [[]] ++
  (if m then [[], [.lit "#SBATCH --mem=".toList, .val (decimal exp.Mem), .lit "G".toList]]
   else []) ++
  [[]] ++
  (if t then [[], [.lit "#SBATCH --time=".toList, .val exp.Time]] else []) ++
  [ [],
    [.lit "set -e".toList],
    [.lit "# User: ".toList, .val user.Name],
    [.lit "# File: ".toList, .val exp.File],
    [.lit "# Experiment: ".toList, .val exp.Experiment],
    [.lit "# Date: ".toList, .val exp.Created],
    [.lit "export FILE=".toList, .val exp.File],
    [.lit "export WORKDIR=".toList, .val exp.BaseDir],
    [.lit "export METHOD=".toList, .val exp.Method],
    [.lit "echo \"########################\"".toList],
    [.lit "date".toList],
    [.lit "echo \"########################\"".toList],
    [.lit "if [ ! -e $FILE ]; then".toList],
    [.lit "    echo \"File $FILE not found\"".toList],
    [.lit "    exit 1".toList],
    [.lit "fi".toList] ]

/-- The lines one round of the `range` block writes before the command. -/
def rangeLines : List (List Piece) :=
  [ [],
    [.lit "echo \"########################\"".toList],
    [.lit "date".toList],
    [.lit "echo \"########################\"".toList] ]

/-! ## The rule loop and the entry loop -/

theorem CreateJob.rules_ne_err (env : Env) (fullPath : Str) (rs : List Str) (e : Str) :
    CreateJob.rules env fullPath rs ≠ .err e := by
  induction rs with
  | nil => simp [CreateJob.rules]
  | cons r rest ih =>
    unfold CreateJob.rules
    cases hr : env.regexp r with
    | none => simp
    | some re =>
      by_cases hm : re fullPath = true
      · simp [hm]
      · simpa [hm] using ih

/-- When the rule loop ends without panic, its result tells whether some rule
is well-formed and matches. -/
theorem CreateJob.rules_ok (env : Env) (fullPath : Str) (rs : List Str) (b : Bool)
    (h : CreateJob.rules env fullPath rs = .ok b) :
    rs.any (CreateJob.ruleMatches env fullPath) = b := by
  induction rs with
  | nil => simpa [CreateJob.rules, eq_comm] using h
  | cons r rest ih =>
    unfold CreateJob.rules at h
    cases hr : env.regexp r with
    | none => simp [hr] at h
    | some re =>
      by_cases hm : re fullPath = true
      · simp [hr, hm] at h
        simp [CreateJob.ruleMatches, hr, hm, ← h]
      · simp [hr, hm] at h
        simp [CreateJob.ruleMatches, hr, hm, ih h]

/-- The rule loop never panics on well-formed patterns. -/
theorem CreateJob.rules_of_wellformed (env : Env) (fullPath : Str) (rs : List Str)
    (hwf : ∀ r ∈ rs, (env.regexp r).isSome = true) :
    CreateJob.rules env fullPath rs = .ok (rs.any (CreateJob.ruleMatches env fullPath)) := by
  induction rs with
  | nil => simp [CreateJob.rules]
  | cons r rest ih =>
    have hr := hwf r (List.mem_cons_self _ _)
    have ih' := ih (fun q hq => hwf q (List.mem_cons_of_mem _ hq))
    unfold CreateJob.rules
    cases hre : env.regexp r with
    | none => simp [hre] at hr
    | some re =>
      by_cases hm : re fullPath = true
      · simp [CreateJob.ruleMatches, hre, hm]
      · simp [CreateJob.ruleMatches, hre, hm, ih']

/-- The rule loop answers `true` exactly when a rule matches and every rule
before it is well-formed and does not match. -/
theorem CreateJob.rules_true_iff (env : Env) (fullPath : Str) (rs : List Str) :
    CreateJob.rules env fullPath rs = .ok true ↔
      ∃ pre r post, rs = pre ++ r :: post ∧
        (∀ q ∈ pre, ∃ re, env.regexp q = some re ∧ re fullPath = false) ∧
        CreateJob.ruleMatches env fullPath r = true := by
  induction rs with
  | nil => simp [CreateJob.rules]
  | cons r rest ih =>
    unfold CreateJob.rules
    cases hre : env.regexp r with
    | none =>
      refine ⟨(fun h => by cases h), ?_⟩
      rintro ⟨pre, q, post, hsplit, hpre, hq⟩
      exfalso
      cases pre with
      | nil =>
        simp only [List.nil_append, List.cons.injEq] at hsplit
        rw [← hsplit.1] at hq
        simp [CreateJob.ruleMatches, hre] at hq
      | cons a pre' =>
        simp only [List.cons_append, List.cons.injEq] at hsplit
        obtain ⟨re, h1, _⟩ := hpre a (List.mem_cons_self _ _)
        rw [← hsplit.1, hre] at h1
        exact absurd h1 (by simp)
    | some re =>
      by_cases hm : re fullPath = true
      · simp only [hm, if_true, true_iff]
        exact ⟨[], r, rest, rfl, by simp, by simp [CreateJob.ruleMatches, hre, hm]⟩
      · simp only [hm, if_false, Bool.false_eq_true]
        rw [ih]
        constructor
        · rintro ⟨pre, q, post, hsplit, hpre, hq⟩
          refine ⟨r :: pre, q, post, by simp [hsplit], ?_, hq⟩
          intro a ha
          rcases List.mem_cons.1 ha with rfl | ha
          · exact ⟨re, hre, by simpa using hm⟩
          · exact hpre a ha
        · rintro ⟨pre, q, post, hsplit, hpre, hq⟩
          cases pre with
          | nil =>
            simp only [List.nil_append, List.cons.injEq] at hsplit
            rw [← hsplit.1] at hq
            simp [CreateJob.ruleMatches, hre, hm] at hq
          | cons a pre' =>
            simp only [List.cons_append, List.cons.injEq] at hsplit
            exact ⟨pre', q, post, hsplit.2, fun b hb => hpre b (List.mem_cons_of_mem _ hb), hq⟩

theorem CreateJob.loop_skip (env : Env) (method : METHOD) (fullPath : Str) (name : Str)
    (exp : HeroJob) (rest : List (Str × HeroJob)) (sel : Str × HeroJob)
    (hs : CreateJob.skipped method exp = true) :
    CreateJob.loop env method fullPath ((name, exp) :: rest) sel
      = CreateJob.loop env method fullPath rest sel := by
  have h : exp.Methods = [] ∧ method ≠ FILE_ADD := by
    simpa [CreateJob.skipped] using hs
  simp [CreateJob.loop, h]

theorem CreateJob.loop_visit (env : Env) (method : METHOD) (fullPath : Str) (name : Str)
    (exp : HeroJob) (rest : List (Str × HeroJob)) (sel : Str × HeroJob)
    (hs : CreateJob.skipped method exp = false) :
    CreateJob.loop env method fullPath ((name, exp) :: rest) sel
      = match CreateJob.rules env fullPath exp.Rules with
        | .panic => .panic
        | .err e => .err e
        | .ok true => CreateJob.loop env method fullPath rest (name, exp)
        | .ok false => CreateJob.loop env method fullPath rest sel := by
  have h : ¬ (exp.Methods = [] ∧ method ≠ FILE_ADD) := by
    simpa [CreateJob.skipped] using hs
  simp [CreateJob.loop, h]

/-- Whatever the loop ends with is the starting value or an entry that passed
the empty-methods check. -/
theorem CreateJob.loop_result (env : Env) (method : METHOD) (fullPath : Str)
    (entries : List (Str × HeroJob)) (sel r : Str × HeroJob)
    (h : CreateJob.loop env method fullPath entries sel = .ok r) :
    r = sel ∨ (r ∈ entries ∧ CreateJob.skipped method r.2 = false) := by
  induction entries generalizing sel with
  | nil =>
    simp only [CreateJob.loop, Res.ok.injEq] at h
    exact Or.inl h.symm
  | cons e rest ih =>
    obtain ⟨name, exp⟩ := e
    cases hs : CreateJob.skipped method exp with
    | true =>
      rw [CreateJob.loop_skip env method fullPath name exp rest sel hs] at h
      rcases ih sel h with h1 | ⟨h1, h2⟩
      · exact Or.inl h1
      · exact Or.inr ⟨List.mem_cons_of_mem _ h1, h2⟩
    | false =>
      rw [CreateJob.loop_visit env method fullPath name exp rest sel hs] at h
      cases hr : CreateJob.rules env fullPath exp.Rules with
      | panic => simp [hr] at h
      | err e => simp [hr] at h
      | ok b =>
        cases b with
        | true =>
          simp only [hr] at h
          rcases ih (name, exp) h with h1 | ⟨h1, h2⟩
          · exact Or.inr ⟨by simp [h1], by simpa [h1] using hs⟩
          · exact Or.inr ⟨List.mem_cons_of_mem _ h1, h2⟩
        | false =>
          simp only [hr] at h
          rcases ih sel h with h1 | ⟨h1, h2⟩
          · exact Or.inl h1
          · exact Or.inr ⟨List.mem_cons_of_mem _ h1, h2⟩

/-- An entry the empty-methods check skips has no effect on the loop, wherever
it stands. -/
theorem CreateJob.loop_insert_skipped (env : Env) (method : METHOD) (fullPath : Str)
    (name : Str) (exp : HeroJob) (hs : CreateJob.skipped method exp = true)
    (before after : List (Str × HeroJob)) (sel : Str × HeroJob) :
    CreateJob.loop env method fullPath (before ++ (name, exp) :: after) sel
      = CreateJob.loop env method fullPath (before ++ after) sel := by
  induction before generalizing sel with
  | nil => simpa using CreateJob.loop_skip env method fullPath name exp after sel hs
  | cons e rest ih =>
    obtain ⟨n, x⟩ := e
    cases hx : CreateJob.skipped method x with
    | true =>
      simp only [List.cons_append]
      rw [CreateJob.loop_skip env method fullPath n x _ sel hx,
        CreateJob.loop_skip env method fullPath n x _ sel hx]
      exact ih sel
    | false =>
      simp only [List.cons_append]
      rw [CreateJob.loop_visit env method fullPath n x _ sel hx,
        CreateJob.loop_visit env method fullPath n x _ sel hx]
      cases CreateJob.rules env fullPath x.Rules with
      | panic => rfl
      | err e => rfl
      | ok b =>
        cases b with
        | true => exact ih (n, x)
        | false => exact ih sel

/-- When no rule loop of a visited entry panics, the loop ends with the last
matching entry, or with the starting value when there is none. -/
theorem CreateJob.loop_last (env : Env) (method : METHOD) (fullPath : Str)
    (entries : List (Str × HeroJob)) (sel : Str × HeroJob)
    (hnp : ∀ e ∈ entries, CreateJob.skipped method e.2 = false →
      CreateJob.rules env fullPath e.2.Rules ≠ .panic) :
    CreateJob.loop env method fullPath entries sel
      = .ok ((CreateJob.matching env method fullPath entries).getLast?.getD sel) := by
  induction entries generalizing sel with
  | nil => simp [CreateJob.loop, CreateJob.matching]
  | cons e rest ih =>
    obtain ⟨name, exp⟩ := e
    have ih' := fun sel => ih sel (fun e he => hnp e (List.mem_cons_of_mem _ he))
    cases hs : CreateJob.skipped method exp with
    | true =>
      rw [CreateJob.loop_skip env method fullPath name exp rest sel hs, ih']
      simp [CreateJob.matching, hs]
    | false =>
      rw [CreateJob.loop_visit env method fullPath name exp rest sel hs]
      have hp := hnp (name, exp) (List.mem_cons_self _ _) hs
      cases hr : CreateJob.rules env fullPath exp.Rules with
      | panic => exact absurd hr hp
      | err e => exact absurd hr (CreateJob.rules_ne_err env fullPath _ e)
      | ok b =>
        have hany := CreateJob.rules_ok env fullPath _ b hr
        cases b with
        | true =>
          simp only [ih']
          simp only [CreateJob.matching] at hany ⊢
          rw [List.filter_cons_of_pos (by simp [hs, hany])]
          cases hf : List.filter (fun e : Str × HeroJob =>
              !CreateJob.skipped method e.2 &&
                e.2.Rules.any (CreateJob.ruleMatches env fullPath)) rest with
          | nil => simp
          | cons a l => simp [List.getLast?_cons]
        | false =>
          simp only [ih']
          simp only [CreateJob.matching] at hany ⊢
          rw [List.filter_cons_of_neg (by simp [hs, hany])]

/-! ## Splitting, joining and cleaning paths -/

theorem strings.Split_ne_nil (s : Str) (c : Char) : strings.Split s c ≠ [] := by
  induction s with
  | nil => simp [strings.Split]
  | cons a s ih =>
    unfold strings.Split
    by_cases h : a = c
    · simp [h]
    · simp only [h, if_false]
      cases hs : strings.Split s c with
      | nil => simp
      | cons w ws => simp

/-- Splitting distributes over a separator. -/
theorem strings.Split_append_sep (a b : Str) (c : Char) :
    strings.Split (a ++ c :: b) c = strings.Split a c ++ strings.Split b c := by
  induction a with
  | nil => simp [strings.Split]
  | cons x a ih =>
    by_cases h : x = c
    · simp [strings.Split, h, ih]
    · have hx : strings.Split (x :: (a ++ c :: b)) c
          = match strings.Split (a ++ c :: b) c with
            | [] => [[x]]
            | w :: ws => (x :: w) :: ws := by
        simp [strings.Split, h]
      have hy : strings.Split (x :: a) c
          = match strings.Split a c with
            | [] => [[x]]
            | w :: ws => (x :: w) :: ws := by
        simp [strings.Split, h]
      rw [List.cons_append, hx, hy, ih]
      cases hs : strings.Split a c with
      | nil => exact absurd hs (strings.Split_ne_nil a c)
      | cons w ws => simp

/-- A string without the separator is a single piece. -/
theorem strings.Split_of_not_mem (a : Str) (c : Char) (h : c ∉ a) :
    strings.Split a c = [a] := by
  induction a with
  | nil => simp [strings.Split]
  | cons x a ih =>
    have hx : x ≠ c := fun e => h (by simp [e])
    have ha : c ∉ a := fun e => h (List.mem_cons_of_mem _ e)
    simp [strings.Split, hx, ih ha]

/-- No piece contains the separator. -/
theorem strings.not_mem_of_mem_Split (s : Str) (c : Char) :
    ∀ w ∈ strings.Split s c, c ∉ w := by
  induction s with
  | nil => simp [strings.Split]
  | cons x s ih =>
    unfold strings.Split
    by_cases h : x = c
    · simp only [h, if_true]
      intro w hw
      rcases List.mem_cons.1 hw with rfl | hw
      · simp
      · exact ih w hw
    · simp only [h, if_false]
      cases hs : strings.Split s c with
      | nil => exact absurd hs (strings.Split_ne_nil s c)
      | cons v vs =>
        rw [hs] at ih
        intro w hw
        rcases List.mem_cons.1 hw with rfl | hw
        · intro hc
          rcases List.mem_cons.1 hc with e | e
          · exact h e.symm
          · exact ih v (List.mem_cons_self _ _) e
        · exact ih w (List.mem_cons_of_mem _ hw)

theorem strings.Join_cons_cons (a b : Str) (l : List Str) (sep : Str) :
    strings.Join (a :: b :: l) sep = a ++ (sep ++ strings.Join (b :: l) sep) := by
  simp [strings.Join]

theorem strings.Join_append (a b : List Str) (sep : Str) (ha : a ≠ []) (hb : b ≠ []) :
    strings.Join (a ++ b) sep = strings.Join a sep ++ (sep ++ strings.Join b sep) := by
  induction a with
  | nil => exact absurd rfl ha
  | cons x a ih =>
    cases a with
    | nil =>
      cases b with
      | nil => exact absurd rfl hb
      | cons y b => simp [strings.Join]
    | cons z a =>
      have := ih (by simp)
      simp only [List.cons_append] at this ⊢
      rw [strings.Join_cons_cons, this, strings.Join_cons_cons]
      simp [List.append_assoc]

/-- Joining non-empty elements gives a non-empty string. -/
theorem strings.Join_ne_nil (l : List Str) (sep : Str) (hl : l ≠ [])
    (hne : ∀ w ∈ l, w ≠ []) : strings.Join l sep ≠ [] := by
  cases l with
  | nil => exact absurd rfl hl
  | cons x l =>
    have hx := hne x (List.mem_cons_self _ _)
    cases l with
    | nil => simpa [strings.Join] using hx
    | cons y l => simp [strings.Join, hx]

/-- Splitting undoes joining of separator-free elements. -/
theorem strings.Split_Join (l : List Str) (c : Char) (hl : l ≠ [])
    (hc : ∀ w ∈ l, c ∉ w) : strings.Split (strings.Join l [c]) c = l := by
  induction l with
  | nil => exact absurd rfl hl
  | cons x l ih =>
    have hx := hc x (List.mem_cons_self _ _)
    cases l with
    | nil => simpa [strings.Join] using strings.Split_of_not_mem x c hx
    | cons y l =>
      have := ih (by simp) (fun w hw => hc w (List.mem_cons_of_mem _ hw))
      rw [strings.Join_cons_cons]
      simp only [List.singleton_append]
      rw [strings.Split_append_sep, this, strings.Split_of_not_mem x c hx]
      simp

namespace filepath

theorem Kept_dotdot : Kept ['.', '.'] := by
  refine ⟨by simp, by simp, by decide⟩

theorem cleanStep_kept (rooted : Bool) (stack : List Str) (elem : Str)
    (hs : ∀ x ∈ stack, Kept x) (he : '/' ∉ elem) :
    ∀ x ∈ cleanStep rooted stack elem, Kept x := by
  unfold cleanStep
  by_cases h1 : elem = [] ∨ elem = ['.']
  · simpa [h1] using hs
  · simp only [h1, if_false]
    by_cases h2 : elem = ['.', '.']
    · simp only [h2, if_true]
      cases stack with
      | nil =>
        cases rooted
        · simpa using Kept_dotdot
        · simp
      | cons top rest =>
        by_cases h3 : top = ['.', '.']
        · cases rooted
          · simp only [h3, if_true, Bool.false_eq_true, if_false]
            intro x hx
            rcases List.mem_cons.1 hx with rfl | hx
            · exact Kept_dotdot
            · exact hs x (by simpa [h3] using hx)
          · simpa [h3] using hs
        · simp only [h3, if_false]
          exact fun x hx => hs x (List.mem_cons_of_mem _ hx)
    · simp only [h2, if_false]
      intro x hx
      rcases List.mem_cons.1 hx with rfl | hx
      · exact ⟨fun e => h1 (Or.inl e), fun e => h1 (Or.inr e), he⟩
      · exact hs x hx

theorem foldl_cleanStep_kept (rooted : Bool) (elems : List Str) (stack : List Str)
    (hs : ∀ x ∈ stack, Kept x) (he : ∀ e ∈ elems, '/' ∉ e) :
    ∀ x ∈ elems.foldl (cleanStep rooted) stack, Kept x := by
  induction elems generalizing stack with
  | nil => simpa using hs
  | cons e elems ih =>
    simp only [List.foldl_cons]
    exact ih _ (cleanStep_kept rooted stack e hs (he e (List.mem_cons_self _ _)))
      (fun x hx => he x (List.mem_cons_of_mem _ hx))

/-- Every element `Clean` keeps is non-empty, is not `.` and has no
separator. -/
theorem cleanElems_kept (rooted : Bool) (s : Str) :
    ∀ x ∈ cleanElems rooted (strings.Split s '/'), Kept x := by
  intro x hx
  rw [cleanElems, List.mem_reverse] at hx
  exact foldl_cleanStep_kept rooted _ [] (by simp)
    (strings.not_mem_of_mem_Split s '/') x hx

/-- Elements other than `..` are pushed when they are names and dropped
otherwise. -/
theorem foldl_cleanStep_no_dotdot (rooted : Bool) (elems : List Str) (stack : List Str)
    (h : ∀ e ∈ elems, e ≠ ['.', '.']) :
    elems.foldl (cleanStep rooted) stack = (elems.filter plain).reverse ++ stack := by
  induction elems generalizing stack with
  | nil => simp
  | cons e elems ih =>
    have he := h e (List.mem_cons_self _ _)
    have ih' := fun st => ih st (fun x hx => h x (List.mem_cons_of_mem _ hx))
    simp only [List.foldl_cons, ih']
    by_cases h1 : e = [] ∨ e = ['.']
    · have hp : plain e = false := by
        rcases h1 with h1 | h1 <;> simp [plain, h1]
      simp [cleanStep, h1, hp]
    · have hp : plain e = true := by
        simp only [not_or] at h1
        simp [plain, h1.1, h1.2, he]
      simp [cleanStep, h1, he, hp]

/-- The three shapes of a path under a directory. -/
theorem under_of_shape (dir path : Str) (names : List Str) (hn : names ≠ [])
    (hp : ∀ w ∈ names, plain w = true) (hc : ∀ w ∈ names, '/' ∉ w)
    (h : (Clean dir = ['/'] ∧ path = '/' :: strings.Join names ['/']) ∨
         (Clean dir = ['.'] ∧ path = strings.Join names ['/']) ∨
         (Clean dir ≠ ['/'] ∧ Clean dir ≠ ['.'] ∧
           path = Clean dir ++ '/' :: strings.Join names ['/'])) :
    under dir path = true := by
  have hsplit := strings.Split_Join names '/' hn hc
  have hall : (names.all plain) = true := by
    simpa [List.all_eq_true] using hp
  rcases h with ⟨hd, rfl⟩ | ⟨hd, rfl⟩ | ⟨h1, h2, rfl⟩
  · simp [under, hd, hsplit, hall]
  · simp [under, hd, hsplit, hall]
  · have hpre : (Clean dir ++ ['/']).isPrefixOf
        (Clean dir ++ '/' :: strings.Join names ['/']) = true := by
      rw [List.isPrefixOf_iff_prefix]
      exact ⟨strings.Join names ['/'], by simp⟩
    have hdrop : (Clean dir ++ '/' :: strings.Join names ['/']).drop ((Clean dir).length + 1)
        = strings.Join names ['/'] := by
      have : Clean dir ++ '/' :: strings.Join names ['/']
          = (Clean dir ++ ['/']) ++ strings.Join names ['/'] := by simp
      rw [this]
      exact List.drop_left' (by simp)
    simp only [under, h1, h2, if_false, hpre, if_true, hdrop, hsplit, hall]

/-- Joined kept elements are never the single character `/` or `.`. -/
theorem Join_kept_ne_single (l : List Str) (hl : l ≠ []) (hk : ∀ x ∈ l, Kept x) (c : Char)
    (hc : c = '/' ∨ c = '.') : strings.Join l ['/'] ≠ [c] := by
  cases l with
  | nil => exact absurd rfl hl
  | cons a l =>
    obtain ⟨ha1, ha2, ha3⟩ := hk a (List.mem_cons_self _ _)
    cases l with
    | nil =>
      simp only [strings.Join]
      rcases hc with rfl | rfl
      · intro e
        exact ha3 (by simp [e])
      · exact ha2
    | cons b l =>
      rw [strings.Join_cons_cons]
      intro e
      have hlen := congrArg List.length e
      cases a with
      | nil => exact ha1 rfl
      | cons x a => simp at hlen

/-- A name appended to a non-empty directory stays under the directory as long
as no element of the name before the last one is `..` and the last one is a
name. -/
theorem under_Join (dir name : Str) (hD : dir ≠ [])
    (hmid : ∀ el ∈ (strings.Split name '/').dropLast, el ≠ ['.', '.'])
    (hlast : ∀ el ∈ (strings.Split name '/').getLast?, plain el = true) :
    under dir (Join [dir, name]) = true := by
  have hJ : Join [dir, name] = Clean (dir ++ '/' :: name) := by
    simp [Join, hD, strings.Join]
  have hhead : (dir ++ '/' :: name).head? = dir.head? := by
    cases dir with
    | nil => exact absurd rfl hD
    | cons x d => simp
  obtain ⟨front, last, hsn⟩ : ∃ front last, strings.Split name '/' = front ++ [last] := by
    have := List.dropLast_append_getLast (strings.Split_ne_nil name '/')
    exact ⟨_, _, this.symm⟩
  have hfront : ∀ el ∈ front, el ≠ ['.', '.'] := by
    simpa [hsn] using hmid
  have hl : plain last = true := by
    simpa [hsn] using hlast
  have hnodd : ∀ el ∈ strings.Split name '/', el ≠ ['.', '.'] := by
    intro el hel
    rw [hsn] at hel
    rcases List.mem_append.1 hel with h | h
    · exact hfront el h
    · have : el = last := by simpa using h
      subst this
      intro e
      simp [plain, e] at hl
  have hnames : ∀ rooted : Bool,
      cleanElems rooted (strings.Split (dir ++ '/' :: name) '/')
        = cleanElems rooted (strings.Split dir '/') ++ (strings.Split name '/').filter plain := by
    intro rooted
    simp only [cleanElems, strings.Split_append_sep, List.foldl_append]
    rw [foldl_cleanStep_no_dotdot rooted _ _ hnodd]
    simp
  have hB : (strings.Split name '/').filter plain ≠ [] := by
    rw [hsn]
    simp [List.filter_append, hl]
  have hBp : ∀ w ∈ (strings.Split name '/').filter plain, plain w = true :=
    fun w hw => (List.mem_filter.1 hw).2
  have hBc : ∀ w ∈ (strings.Split name '/').filter plain, '/' ∉ w :=
    fun w hw => strings.not_mem_of_mem_Split name '/' w (List.mem_filter.1 hw).1
  have hBne : ∀ w ∈ (strings.Split name '/').filter plain, w ≠ [] := by
    intro w hw e
    have := hBp w hw
    simp [plain, e] at this
  have hJB := strings.Join_ne_nil _ ['/'] hB hBne
  refine under_of_shape dir _ _ hB hBp hBc ?_
  rw [hJ]
  by_cases hr : dir.head? = some '/'
  · -- rooted
    have hk := cleanElems_kept true dir
    cases hA : cleanElems true (strings.Split dir '/') with
    | nil =>
      left
      simp [Clean, hhead, hr, hnames, hA, strings.Join]
    | cons a A =>
      right; right
      have hne : cleanElems true (strings.Split dir '/') ≠ [] := by simp [hA]
      have hJA := strings.Join_ne_nil _ ['/'] hne (fun w hw => (hk w hw).1)
      have happ := strings.Join_append _ _ ['/'] hne hB
      rw [hA] at hJA happ
      simp only [List.cons_append, List.singleton_append] at happ
      refine ⟨?_, ?_, ?_⟩
      · simp [Clean, hr, hA, hJA]
      · simp [Clean, hr, hA]
      · simp [Clean, hhead, hr, hnames, hA, happ]
  · -- not rooted
    have hk := cleanElems_kept false dir
    cases hA : cleanElems false (strings.Split dir '/') with
    | nil =>
      right; left
      simp [Clean, hhead, hr, hnames, hA, strings.Join, hJB]
    | cons a A =>
      right; right
      have hne : cleanElems false (strings.Split dir '/') ≠ [] := by simp [hA]
      have hJA := strings.Join_ne_nil _ ['/'] hne (fun w hw => (hk w hw).1)
      have h1 := Join_kept_ne_single _ hne hk '/' (Or.inl rfl)
      have h2 := Join_kept_ne_single _ hne hk '.' (Or.inr rfl)
      have happ := strings.Join_append _ _ ['/'] hne hB
      rw [hA] at hJA happ h1 h2
      simp only [List.cons_append, List.singleton_append] at happ
      refine ⟨?_, ?_, ?_⟩
      · simpa [Clean, hr, hA, hJA] using h1
      · simpa [Clean, hr, hA, hJA] using h2
      · simp [Clean, hhead, hr, hnames, hA, happ, hJA]

end filepath

/-! ## Decimal text and the characters of cleaned paths -/

theorem digitChar_mod_ten (n : Nat) : Nat.digitChar (n % 10) ∈ "0123456789".toList := by
  have h : n % 10 < 10 := Nat.mod_lt _ (by decide)
  generalize n % 10 = m at h
  interval_cases m <;> decide

theorem toDigitsCore_chars (fuel n : Nat) (ds : List Char)
    (hds : ∀ c ∈ ds, c ∈ "0123456789".toList) :
    ∀ c ∈ Nat.toDigitsCore 10 fuel n ds, c ∈ "0123456789".toList := by
  induction fuel generalizing n ds with
  | zero => simpa [Nat.toDigitsCore] using hds
  | succ fuel ih =>
    have hcons : ∀ c ∈ Nat.digitChar (n % 10) :: ds, c ∈ "0123456789".toList := by
      intro c hc
      rcases List.mem_cons.1 hc with rfl | hc
      · exact digitChar_mod_ten n
      · exact hds c hc
    simp only [Nat.toDigitsCore]
    by_cases h0 : n / 10 = 0
    · simpa [h0] using hcons
    · simp only [h0, if_false]
      exact ih _ _ hcons

/-- The decimal text of an integer consists of digits and the minus sign. -/
theorem decimal_chars (n : Int) : ∀ c ∈ decimal n, c ∈ "-0123456789".toList := by
  intro c hc
  have hnat : ∀ m : Nat, ∀ c ∈ (toString m).toList, c ∈ "0123456789".toList := by
    intro m c hc
    exact toDigitsCore_chars _ _ [] (by simp) c hc
  cases n with
  | ofNat m =>
    have := hnat m c hc
    exact List.mem_cons_of_mem _ this
  | negSucc m =>
    have hc' : c ∈ '-' :: (toString (m + 1)).toList := by
      simpa [decimal, toString, instToStringInt] using hc
    rcases List.mem_cons.1 hc' with rfl | hc'
    · decide
    · exact List.mem_cons_of_mem _ (hnat _ c hc')

theorem decimal_no_newline (n : Int) : '\n' ∉ decimal n :=
  fun h => absurd (decimal_chars n _ h) (by decide)

theorem decimal_no_slash (n : Int) : '/' ∉ decimal n :=
  fun h => absurd (decimal_chars n _ h) (by decide)

theorem strings.mem_of_mem_Split (s : Str) (c : Char) :
    ∀ w ∈ strings.Split s c, ∀ x ∈ w, x ∈ s := by
  induction s with
  | nil => simp [strings.Split]
  | cons a s ih =>
    unfold strings.Split
    by_cases h : a = c
    · simp only [h, if_true]
      intro w hw x hx
      rcases List.mem_cons.1 hw with rfl | hw
      · simp at hx
      · exact List.mem_cons_of_mem _ (ih w hw x hx)
    · simp only [h, if_false]
      cases hs : strings.Split s c with
      | nil => exact absurd hs (strings.Split_ne_nil s c)
      | cons v vs =>
        rw [hs] at ih
        intro w hw x hx
        rcases List.mem_cons.1 hw with rfl | hw
        · rcases List.mem_cons.1 hx with rfl | hx
          · exact List.mem_cons_self _ _
          · exact List.mem_cons_of_mem _ (ih v (List.mem_cons_self _ _) x hx)
        · exact List.mem_cons_of_mem _ (ih w (List.mem_cons_of_mem _ hw) x hx)

theorem strings.mem_Join (l : List Str) (sep : Str) (x : Char)
    (h : x ∈ strings.Join l sep) : x ∈ sep ∨ ∃ w ∈ l, x ∈ w := by
  induction l with
  | nil => simp [strings.Join] at h
  | cons a l ih =>
    cases l with
    | nil => exact Or.inr ⟨a, by simp, by simpa [strings.Join] using h⟩
    | cons b l =>
      rw [strings.Join_cons_cons] at h
      rcases List.mem_append.1 h with h | h
      · exact Or.inr ⟨a, by simp, h⟩
      · rcases List.mem_append.1 h with h | h
        · exact Or.inl h
        · rcases ih h with h | ⟨w, hw, hx⟩
          · exact Or.inl h
          · exact Or.inr ⟨w, List.mem_cons_of_mem _ hw, hx⟩

namespace filepath

theorem mem_cleanStep (rooted : Bool) (stack : List Str) (elem x : Str)
    (h : x ∈ cleanStep rooted stack elem) : x ∈ stack ∨ x = elem ∨ x = ['.', '.'] := by
  unfold cleanStep at h
  by_cases h1 : elem = [] ∨ elem = ['.']
  · simp only [h1, if_true] at h
    exact Or.inl h
  · simp only [h1, if_false] at h
    by_cases h2 : elem = ['.', '.']
    · simp only [h2, if_true] at h
      cases stack with
      | nil =>
        cases rooted
        · right; right
          simpa using h
        · simp at h
      | cons top rest =>
        by_cases h3 : top = ['.', '.']
        · cases rooted
          · simp only [h3, if_true, Bool.false_eq_true, if_false] at h
            rcases List.mem_cons.1 h with h | h
            · exact Or.inr (Or.inr h)
            · exact Or.inl (by simpa [h3] using h)
          · simp only [h3, if_true] at h
            exact Or.inl (by simpa [h3] using h)
        · simp only [h3, if_false] at h
          exact Or.inl (List.mem_cons_of_mem _ h)
    · simp only [h2, if_false] at h
      rcases List.mem_cons.1 h with h | h
      · exact Or.inr (Or.inl h)
      · exact Or.inl h

theorem mem_foldl_cleanStep (rooted : Bool) (elems stack : List Str) (x : Str)
    (h : x ∈ elems.foldl (cleanStep rooted) stack) :
    x ∈ stack ∨ x ∈ elems ∨ x = ['.', '.'] := by
  induction elems generalizing stack with
  | nil => exact Or.inl (by simpa using h)
  | cons e elems ih =>
    rcases ih _ (by simpa using h) with h | h | h
    · rcases mem_cleanStep rooted stack e x h with h | h | h
      · exact Or.inl h
      · exact Or.inr (Or.inl (by simp [h]))
      · exact Or.inr (Or.inr h)
    · exact Or.inr (Or.inl (List.mem_cons_of_mem _ h))
    · exact Or.inr (Or.inr h)

/-- Every character of a cleaned path is a character of the path, a separator
or a dot. -/
theorem mem_Clean (s : Str) (x : Char) (h : x ∈ Clean s) : x ∈ s ∨ x = '/' ∨ x = '.' := by
  have key : ∀ rooted : Bool,
      x ∈ strings.Join (cleanElems rooted (strings.Split s '/')) ['/'] →
        x ∈ s ∨ x = '/' ∨ x = '.' := by
    intro rooted hx
    rcases strings.mem_Join _ _ _ hx with hx | ⟨w, hw, hx⟩
    · exact Or.inr (Or.inl (by simpa using hx))
    · rw [cleanElems, List.mem_reverse] at hw
      rcases mem_foldl_cleanStep rooted _ _ w hw with hw | hw | hw
      · simp at hw
      · exact Or.inl (strings.mem_of_mem_Split s '/' w hw x hx)
      · rw [hw] at hx
        exact Or.inr (Or.inr (by simpa using hx))
  unfold Clean at h
  by_cases hr : s.head? = some '/'
  · simp only [hr, if_true] at h
    rcases List.mem_cons.1 h with h | h
    · exact Or.inr (Or.inl h)
    · exact key _ (by simpa [hr] using h)
  · simp only [hr, if_false] at h
    split at h
    · exact Or.inr (Or.inr (by simpa using h))
    · exact key _ h

/-- The directory of a path without newline has no newline. -/
theorem Dir_no_newline (file : Str) (h : '\n' ∉ file) : '\n' ∉ Dir file := by
  intro hd
  rcases mem_Clean _ _ hd with h1 | h1 | h1
  · exact h ((List.rdropWhile_prefix _ file).subset h1)
  · exact absurd h1 (by decide)
  · exact absurd h1 (by decide)

end filepath

/-! ## The script, line by line -/

set_option maxRecDepth 100000 in
/-- The output of `scriptTemplate` is the lines of `templateLines`, followed by
the output of the `range` block and a newline. -/
theorem scriptTemplate_eq_unlines (exp : HeroExperiment) (user : HeroUser)
    (hu : exp.User = some user) :
    scriptTemplate exp = .ok (unlines
      (templateLines (exp.Queue != []) (exp.Cpus != 0) (exp.Mem != 0) (exp.Time != []) user exp)
      (scriptTemplate.range exp.Scripts ++ ['\n'])) := by
  unfold scriptTemplate
  rw [hu]
  cases (exp.Queue != []) <;> cases (exp.Cpus != 0) <;> cases (exp.Mem != 0) <;>
    cases (exp.Time != []) <;>
    simp only [cat, tIf, if_true, if_false, Bool.false_eq_true, List.append_assoc,
      List.append_nil, List.nil_append] <;>
    rfl

theorem lineText_tail (l : List Piece) (tail : Str) :
    lineText l tail = lineText l [] ++ tail := by
  induction l with
  | nil => simp [lineText]
  | cons p ps ih => simp [lineText, ih]

theorem startsWith?_sound (p : Str) (l : List Piece) (b : Bool)
    (h : startsWith? p l = some b) : p.isPrefixOf (lineText l []) = b := by
  induction l generalizing p with
  | nil =>
    cases p with
    | nil => simpa [startsWith?] using h
    | cons c p => simpa [startsWith?, lineText] using h
  | cons x rest ih =>
    cases p with
    | nil => simpa [startsWith?] using h
    | cons c p =>
      cases x with
      | val s => simp [startsWith?] at h
      | lit s =>
        simp only [startsWith?] at h
        simp only [lineText, Piece.text]
        by_cases h1 : (c :: p).isPrefixOf s = true
        · simp only [h1, if_true, Option.some.injEq] at h
          rw [← h, List.isPrefixOf_iff_prefix]
          exact (List.isPrefixOf_iff_prefix.1 h1).trans (List.prefix_append _ _)
        · simp only [h1, if_false, Bool.false_eq_true] at h
          by_cases h2 : s.isPrefixOf (c :: p) = true
          · simp only [h2, if_true] at h
            have ih' := ih _ h
            obtain ⟨r, hr⟩ := List.isPrefixOf_iff_prefix.1 h2
            have hdrop : (c :: p).drop s.length = r := by
              rw [← hr]
              exact List.drop_left' rfl
            rw [hdrop] at ih'
            rw [← hr, ← ih']
            cases hb : r.isPrefixOf (lineText rest []) with
            | true =>
              rw [List.isPrefixOf_iff_prefix] at hb ⊢
              exact (List.prefix_append_right_inj s).2 hb
            | false =>
              rw [← Bool.not_eq_true, List.isPrefixOf_iff_prefix] at hb ⊢
              exact fun hp => hb ((List.prefix_append_right_inj s).1 hp)
          · simp only [h2, if_false, Bool.false_eq_true, Option.some.injEq] at h
            rw [← h, ← Bool.not_eq_true, List.isPrefixOf_iff_prefix]
            intro hp
            rcases List.prefix_or_prefix_of_prefix hp (List.prefix_append s _) with h3 | h3
            · exact h1 (List.isPrefixOf_iff_prefix.2 h3)
            · exact h2 (List.isPrefixOf_iff_prefix.2 h3)

theorem lineText_oneLine (l : List Piece) (hl : litsOneLine l = true)
    (hv : ∀ v ∈ lineVals l, '\n' ∉ v) : '\n' ∉ lineText l [] := by
  induction l with
  | nil => simp [lineText]
  | cons x rest ih =>
    cases x with
    | lit s =>
      simp only [litsOneLine, Bool.and_eq_true, List.all_eq_true] at hl
      have hs : '\n' ∉ s := by
        intro hm
        simpa using hl.1 _ hm
      have := ih hl.2 (by simpa [lineVals] using hv)
      simp [lineText, Piece.text, hs, this]
    | val s =>
      simp only [litsOneLine] at hl
      have hs : '\n' ∉ s := hv s (by simp [lineVals])
      have := ih hl (fun v hv' => hv v (by simp [lineVals, hv']))
      simp [lineText, Piece.text, hs, this]

/-- The lines of a text that begins with a whole line. -/
theorem directiveLines_line (p a rest : Str) (ha : '\n' ∉ a) :
    directiveLines p (a ++ '\n' :: rest)
      = (if p.isPrefixOf a then [a] else []) ++ directiveLines p rest := by
  simp only [directiveLines, lines, strings.Split_append_sep, List.filter_append,
    strings.Split_of_not_mem a '\n' ha]
  by_cases h : p.isPrefixOf a = true
  · simp [List.filter_cons, h]
  · simp [List.filter_cons, h]

/-- The lines of a text that begins with a block of lines. -/
theorem directiveLines_block (p a rest : Str) :
    directiveLines p (a ++ '\n' :: rest) = directiveLines p a ++ directiveLines p rest := by
  simp [directiveLines, lines, strings.Split_append_sep, List.filter_append]

/-- Soundness of `hits`: it finds the lines beginning with `p` among lines given by their
pieces, when the substituted values hold no newline. -/
theorem hits_sound (p : Str) (ls : List (List Piece)) (tail : Str) (hs : List Str)
    (h : hits p ls = some hs) (hv : ∀ l ∈ ls, ∀ v ∈ lineVals l, '\n' ∉ v) :
    directiveLines p (unlines ls tail) = hs ++ directiveLines p tail := by
  induction ls generalizing hs with
  | nil =>
    simp only [hits, Option.some.injEq] at h
    simp [unlines, ← h]
  | cons l ls ih =>
    simp only [hits] at h
    cases h1 : startsWith? p l with
    | none => simp [h1] at h
    | some b =>
      cases h2 : litsOneLine l with
      | false => simp [h1, h2] at h
      | true =>
        cases h3 : hits p ls with
        | none => simp [h1, h2, h3] at h
        | some hs' =>
          simp only [h1, h2, h3, Option.some.injEq] at h
          have ih' := ih hs' h3 (fun l' hl' => hv l' (List.mem_cons_of_mem _ hl'))
          have hone := lineText_oneLine l h2 (hv l (List.mem_cons_self _ _))
          have hb := startsWith?_sound p l b h1
          rw [unlines, lineText_tail, directiveLines_line p _ _ hone, ih', hb, ← h]
          cases b <;> simp

/-- A text without line beginning with `q` has no line beginning with a longer
`p`. -/
theorem directiveLines_longer (q p s : Str) (hqp : q <+: p)
    (h : directiveLines q s = []) : directiveLines p s = [] := by
  simp only [directiveLines, List.filter_eq_nil_iff] at h ⊢
  intro l hl hp
  exact h l hl (List.isPrefixOf_iff_prefix.2 (hqp.trans (List.isPrefixOf_iff_prefix.1 hp)))

theorem range_eq_unlines (s : Str) (ss : List Str) :
    scriptTemplate.range (s :: ss) ++ ['\n']
      = unlines rangeLines (s ++ '\n' :: (scriptTemplate.range ss ++ ['\n'])) := by
  simp only [scriptTemplate.range, cat, List.append_assoc, List.append_nil]
  rfl

/-- The `range` block and the final newline add no line beginning with `p`
when no command has such a line. -/
theorem directiveLines_range (p : Str) (hp : hits p rangeLines = some []) (hne : p ≠ [])
    (scripts : List Str) (hS : ∀ sc ∈ scripts, directiveLines p sc = []) :
    directiveLines p (scriptTemplate.range scripts ++ ['\n']) = [] := by
  induction scripts with
  | nil =>
    cases p with
    | nil => exact absurd rfl hne
    | cons c p => simp [scriptTemplate.range, directiveLines, lines, strings.Split]
  | cons s ss ih =>
    rw [range_eq_unlines, hits_sound p rangeLines _ [] hp (by simp [rangeLines, lineVals]),
      directiveLines_block, hS s (List.mem_cons_self _ _),
      ih (fun sc hsc => hS sc (List.mem_cons_of_mem _ hsc))]
    simp

theorem hits_partition (q c m t : Bool) (user : HeroUser) (exp : HeroExperiment) :
    hits "#SBATCH --partition=".toList (templateLines q c m t user exp)
      = some (if q then [lineText [.lit "#SBATCH --partition=".toList, .val exp.Queue] []]
          else []) := by
  cases q <;> cases c <;> cases m <;> cases t <;> rfl

theorem hits_cpus (q c m t : Bool) (user : HeroUser) (exp : HeroExperiment) :
    hits "#SBATCH --cpus-per-task=".toList (templateLines q c m t user exp)
      = some (if c then
          [lineText [.lit "#SBATCH --cpus-per-task=".toList, .val (decimal exp.Cpus)] []]
          else []) := by
  cases q <;> cases c <;> cases m <;> cases t <;> rfl

theorem hits_mem (q c m t : Bool) (user : HeroUser) (exp : HeroExperiment) :
    hits "#SBATCH --mem=".toList (templateLines q c m t user exp)
      = some (if m then
          [lineText [.lit "#SBATCH --mem=".toList, .val (decimal exp.Mem), .lit "G".toList] []]
          else []) := by
  cases q <;> cases c <;> cases m <;> cases t <;> rfl

theorem hits_time (q c m t : Bool) (user : HeroUser) (exp : HeroExperiment) :
    hits "#SBATCH --time=".toList (templateLines q c m t user exp)
      = some (if t then [lineText [.lit "#SBATCH --time=".toList, .val exp.Time] []]
          else []) := by
  cases q <;> cases c <;> cases m <;> cases t <;> rfl

theorem forall_lineVals_of_allVals (P : Str → Prop) (ls : List (List Piece))
    (h : ∀ v ∈ allVals ls, P v) : ∀ l ∈ ls, ∀ v ∈ lineVals l, P v := by
  induction ls with
  | nil => simp
  | cons a ls ih =>
    intro l hl v hv
    rcases List.mem_cons.1 hl with rfl | hl
    · exact h v (List.mem_append_left _ hv)
    · exact ih (fun w hw => h w (List.mem_append_right _ hw)) l hl v hv

theorem allVals_templateLines (q c m t : Bool) (user : HeroUser) (exp : HeroExperiment) :
    allVals (templateLines q c m t user exp)
      = [exp.Experiment, exp.BaseDir, exp.Experiment, exp.BaseDir, exp.Experiment,
          decimal user.UID, decimal user.GID, exp.BaseDir] ++
        ((if q then [exp.Queue] else []) ++
        ((if c then [decimal exp.Cpus] else []) ++
        ((if m then [decimal exp.Mem] else []) ++
        ((if t then [exp.Time] else []) ++
        [user.Name, exp.File, exp.Experiment, exp.Created, exp.File, exp.BaseDir,
          exp.Method])))) := by
  cases q <;> cases c <;> cases m <;> cases t <;> rfl

/-- The values substituted into the lines before the `range` block hold no
newline when the fields of the context hold none. -/
theorem templateLines_vals (q c m t : Bool) (user : HeroUser) (exp : HeroExperiment)
    (h1 : '\n' ∉ exp.Experiment) (h2 : '\n' ∉ exp.BaseDir) (h3 : '\n' ∉ exp.File)
    (h4 : '\n' ∉ exp.Queue) (h5 : '\n' ∉ exp.Time) (h6 : '\n' ∉ user.Name)
    (h7 : '\n' ∉ exp.Created) (h8 : '\n' ∉ exp.Method) :
    ∀ l ∈ templateLines q c m t user exp, ∀ v ∈ lineVals l, '\n' ∉ v := by
  have d1 := decimal_no_newline user.UID
  have d2 := decimal_no_newline user.GID
  have d3 := decimal_no_newline exp.Cpus
  have d4 := decimal_no_newline exp.Mem
  apply forall_lineVals_of_allVals
  intro v hv
  rw [allVals_templateLines] at hv
  have hif : ∀ (b : Bool) (x : Str), '\n' ∉ x → ∀ w ∈ (if b then [x] else []), '\n' ∉ w := by
    intro b x hx w hw
    cases b
    · simp at hw
    · have : w = x := by simpa using hw
      rw [this]
      exact hx
  simp only [List.mem_append] at hv
  rcases hv with hv | hv | hv | hv | hv | hv
  · simp only [List.mem_cons, List.mem_nil_iff, or_false] at hv
    rcases hv with rfl | rfl | rfl | rfl | rfl | rfl | rfl | rfl <;> assumption
  · exact hif q _ h4 v hv
  · exact hif c _ d3 v hv
  · exact hif m _ d4 v hv
  · exact hif t _ h5 v hv
  · simp only [List.mem_cons, List.mem_nil_iff, or_false] at hv
    rcases hv with rfl | rfl | rfl | rfl | rfl | rfl | rfl <;> assumption

/-- The lines of the rendered script that begin with `p`, for a `p` decided
by the literal text of the template. -/
theorem directiveLines_script (p : Str) (hs : List Str) (exp : HeroExperiment)
    (user : HeroUser)
    (hits_p : hits p (templateLines (exp.Queue != []) (exp.Cpus != 0) (exp.Mem != 0)
      (exp.Time != []) user exp) = some hs)
    (hrange : hits p rangeLines = some []) (hne : p ≠ [])
    (h1 : '\n' ∉ exp.Experiment) (h2 : '\n' ∉ exp.BaseDir) (h3 : '\n' ∉ exp.File)
    (h4 : '\n' ∉ exp.Queue) (h5 : '\n' ∉ exp.Time) (h6 : '\n' ∉ user.Name)
    (h7 : '\n' ∉ exp.Created) (h8 : '\n' ∉ exp.Method)
    (hS : ∀ sc ∈ exp.Scripts, directiveLines p sc = []) :
    directiveLines p (unlines
      (templateLines (exp.Queue != []) (exp.Cpus != 0) (exp.Mem != 0) (exp.Time != []) user exp)
      (scriptTemplate.range exp.Scripts ++ ['\n'])) = hs := by
  rw [hits_sound p _ _ hs hits_p (templateLines_vals _ _ _ _ user exp h1 h2 h3 h4 h5 h6 h7 h8),
    directiveLines_range p hrange hne exp.Scripts hS]
  simp

/-! ## The walk of getJobConfig over the ancestors other than the root -/

namespace filepath

theorem plain_ne_dotdot (c : Str) (h : plain c = true) : c ≠ ['.', '.'] := by
  intro e
  simp [plain, e] at h

theorem plain_ne_nil (c : Str) (h : plain c = true) : c ≠ [] := by
  intro e
  simp [plain, e] at h

/-- Cleaning a rooted list of elements that are names or empty keeps the
names. -/
theorem Clean_rooted (body : Str) (cs : List Str)
    (hsplit : (strings.Split body '/').filter plain = cs)
    (hnodd : ∀ e ∈ strings.Split body '/', e ≠ ['.', '.']) :
    Clean ('/' :: body) = ofElems cs := by
  have h1 : strings.Split ('/' :: body) '/' = [] :: strings.Split body '/' := by
    simp [strings.Split]
  have h2 : cleanElems true ([] :: strings.Split body '/') = cs := by
    rw [cleanElems, foldl_cleanStep_no_dotdot true _ []]
    · simp [List.filter_cons, plain, hsplit]
    · intro e he
      rcases List.mem_cons.1 he with he | he
      · rw [he]
        simp
      · exact hnodd e he
  simp [Clean, h1, h2, ofElems]

/-- A rooted path of names is clean. -/
theorem Clean_ofElems (cs : List Str) (hp : ∀ c ∈ cs, plain c = true)
    (hc : ∀ c ∈ cs, '/' ∉ c) : Clean (ofElems cs) = ofElems cs := by
  cases hcs : cs with
  | nil => decide
  | cons a l =>
    have hne : cs ≠ [] := by simp [hcs]
    have hs := strings.Split_Join cs '/' hne hc
    rw [← hcs]
    exact Clean_rooted _ cs (by rw [hs]; exact List.filter_eq_self.2 hp)
      (by rw [hs]; exact fun e he => plain_ne_dotdot e (hp e he))

/-- A separator at the end of a rooted path of names is cleaned away. -/
theorem Clean_ofElems_sep (cs : List Str) (hne : cs ≠ []) (hp : ∀ c ∈ cs, plain c = true)
    (hc : ∀ c ∈ cs, '/' ∉ c) : Clean (ofElems cs ++ ['/']) = ofElems cs := by
  have hs : strings.Split (strings.Join cs ['/'] ++ ['/']) '/' = cs ++ [[]] := by
    rw [strings.Split_append_sep, strings.Split_Join cs '/' hne hc]
    simp [strings.Split]
  have : ofElems cs ++ ['/'] = '/' :: (strings.Join cs ['/'] ++ ['/']) := by
    simp [ofElems]
  rw [this]
  refine Clean_rooted _ cs ?_ ?_
  · rw [hs, List.filter_append, List.filter_eq_self.2 hp]
    simp [plain]
  · rw [hs]
    intro e he
    rcases List.mem_append.1 he with he | he
    · exact plain_ne_dotdot e (hp e he)
    · have : e = [] := by simpa using he
      rw [this]
      simp

/-- The directory of a file directly inside a rooted path of names. -/
theorem Dir_ofElems (cs : List Str) (name : Str) (hne : cs ≠ [])
    (hp : ∀ c ∈ cs, plain c = true) (hc : ∀ c ∈ cs, '/' ∉ c) (hn : '/' ∉ name) :
    Dir (ofElems cs ++ '/' :: name) = ofElems cs := by
  have hdrop : (ofElems cs ++ '/' :: name).rdropWhile (fun c => c != '/')
      = ofElems cs ++ ['/'] := by
    have h1 : ofElems cs ++ '/' :: name = (ofElems cs ++ ['/']) ++ name := by simp
    rw [h1]
    induction name using List.reverseRecOn with
    | nil => simp [List.rdropWhile_concat]
    | append_singleton l a ih =>
      have ha : a ≠ '/' := fun e => hn (by simp [e])
      have hl : '/' ∉ l := fun e => hn (by simp [e])
      rw [← List.append_assoc, List.rdropWhile_concat]
      simp only [bne_iff_ne, ne_eq, ha, not_false_eq_true, if_true]
      exact ih hl (by simp)
  rw [Dir, hdrop, Clean_ofElems_sep cs hne hp hc]

/-- Joining `.hero` to a rooted path of names. -/
theorem Join_ofElems_hero (cs : List Str) (hne : cs ≠ []) (hp : ∀ c ∈ cs, plain c = true)
    (hc : ∀ c ∈ cs, '/' ∉ c) :
    Join [ofElems cs, ".hero".toList] = ofElems cs ++ "/.hero".toList := by
  have hj : strings.Join (cs ++ [".hero".toList]) ['/']
      = strings.Join cs ['/'] ++ '/' :: ".hero".toList := by
    rw [strings.Join_append cs [".hero".toList] ['/'] hne (by simp)]
    rfl
  have h2 : ofElems (cs ++ [".hero".toList]) = ofElems cs ++ "/.hero".toList := by
    unfold ofElems
    rw [hj]
    rfl
  have hne' : ofElems cs ≠ [] := by simp [ofElems]
  have h1 : Join [ofElems cs, ".hero".toList] = Clean (ofElems (cs ++ [".hero".toList])) := by
    rw [h2, Join, if_neg hne']
    rfl
  rw [h1, ← h2]
  apply Clean_ofElems
  · intro c h
    rcases List.mem_append.1 h with h | h
    · exact hp c h
    · have : c = ".hero".toList := by simpa using h
      rw [this]
      decide
  · intro c h
    rcases List.mem_append.1 h with h | h
    · exact hc c h
    · have : c = ".hero".toList := by simpa using h
      rw [this]
      decide

end filepath

theorem Env.statOK_ofElems (env : Env) (cs : List Str) (suffix : Str) :
    env.statOK (filepath.ofElems cs ++ suffix) = env.stat (filepath.ofElems cs ++ suffix) := by
  simp [Env.statOK, Env.resolve, filepath.IsAbs, strings.HasPrefix, filepath.ofElems]

/-- The element list of the directory `/c1/.../cn` as the loop of
`getJobConfig` holds it, cut to the ancestor with `j` elements, for `j` at
least one. -/
theorem getJobConfig.walk_step (env : Env) (cs : List Str) (j : Nat) (hj : 0 < j)
    (hp : ∀ c ∈ cs, filepath.plain c = true) (hc : ∀ c ∈ cs, '/' ∉ c) (hjn : j ≤ cs.length) :
    getJobConfig.walk env ([] :: cs) (j + 1)
      = if env.stat (filepath.ofElems (cs.take j) ++ "/.hero".toList) then
          filepath.ofElems (cs.take j) ++ "/.hero".toList
        else getJobConfig.walk env ([] :: cs) j := by
  have htake : cs.take j ≠ [] := by
    cases cs with
    | nil => simp at hjn; omega
    | cons a l =>
      cases j with
      | zero => omega
      | succ j => simp
  have hpt : ∀ c ∈ cs.take j, filepath.plain c = true :=
    fun c h => hp c (List.mem_of_mem_take h)
  have hct : ∀ c ∈ cs.take j, '/' ∉ c := fun c h => hc c (List.mem_of_mem_take h)
  have hjoin : strings.Join (([] : Str) :: cs.take j) ['/'] = filepath.ofElems (cs.take j) := by
    cases h : cs.take j with
    | nil => exact absurd h htake
    | cons a l => simp [strings.Join_cons_cons, filepath.ofElems]
  rw [getJobConfig.walk]
  simp only [List.take_succ_cons, hjoin, filepath.Join_ofElems_hero _ htake hpt hct,
    Env.statOK_ofElems]

/-- On the file `/c1/.../cn/name`, when the directory `/c1/.../ck` (with `k` at
least one) holds a `.hero` file and no directory between the directory of the
file and it does, `getJobConfig` reads that `.hero` file, whether or not the
home of the user has one. -/
theorem getJobConfig.locate_ancestor (env : Env) (user : HeroUser) (cs : List Str)
    (name : Str) (k : Nat) (hk : 0 < k) (hkn : k ≤ cs.length)
    (hp : ∀ c ∈ cs, filepath.plain c = true) (hc : ∀ c ∈ cs, '/' ∉ c) (hn : '/' ∉ name)
    (hfound : env.stat (filepath.ofElems (cs.take k) ++ "/.hero".toList) = true)
    (hnone : ∀ j, k < j → j ≤ cs.length →
      env.stat (filepath.ofElems (cs.take j) ++ "/.hero".toList) = false) :
    getJobConfig.locate env (filepath.ofElems cs ++ '/' :: name) user
      = some (filepath.ofElems (cs.take k) ++ "/.hero".toList) := by
  have hne : cs ≠ [] := by
    intro e
    rw [e] at hkn
    simp at hkn
    omega
  have hwalk : ∀ d, k + d ≤ cs.length →
      getJobConfig.walk env ([] :: cs) (k + d + 1)
        = filepath.ofElems (cs.take k) ++ "/.hero".toList := by
    intro d
    induction d with
    | zero =>
      intro _
      rw [Nat.add_zero, getJobConfig.walk_step env cs k hk hp hc hkn, hfound]
      simp
    | succ d ih =>
      intro hd
      rw [← Nat.add_assoc, getJobConfig.walk_step env cs (k + d + 1) (by omega) hp hc hd,
        hnone (k + d + 1) (by omega) hd]
      simpa using ih (by omega)
  have hsplit : strings.Split (filepath.ofElems cs) '/' = [] :: cs := by
    simp [filepath.ofElems, strings.Split, strings.Split_Join cs '/' hne hc]
  have hres := hwalk (cs.length - k) (by omega)
  have hlen : k + (cs.length - k) + 1 = (([] : Str) :: cs).length := by
    simp
    omega
  rw [hlen] at hres
  unfold getJobConfig.locate
  simp only [filepath.Dir_ofElems cs name hne hp hc hn, hsplit, hres]
  simp [filepath.ofElems]

/-! ## Claims settled by evaluating the program -/

/-- C1 (the program differs): `/data/.hero` declares `e1` with
`methods: [edit]` and rule `\.csv$`; on the event `add` for `/data/x.csv`
the value of `methodOK` is false, yet the rules of `e1` are evaluated, `e1` is
the selected experiment and `CreateJob` returns the path of its script. -/
theorem C1_ineligible_entry_selected :
    CreateJob.methodOK FILE_ADD editOnlyJob = false ∧
    CreateJob.selects editOnlyEnv FILE_ADD "/data/x.csv".toList
      { Hero := [("e1".toList, editOnlyJob)] } "e1".toList editOnlyJob ∧
    CreateJob editOnlyEnv "/data/x.csv".toList FILE_ADD (some alice) (some tmpCfg)
      = .ok "/tmp/e1_1700000000.sh".toList := by
  refine ⟨by decide, ⟨by decide, by decide⟩, by decide⟩

/-- C2 (the program differs): with working directory `/srv`, a `.hero` file in
the root directory and one in the home of the user, and none in `/data`, the
configuration read for `/data/x.csv` is the one of the home directory: after
`/data/.hero` the loop tests the relative name `.hero`, never `/.hero`. -/
theorem C2_root_hero_not_found :
    rootAndHomeEnv.statOK "/.hero".toList = true ∧
    rootAndHomeEnv.statOK "/data/.hero".toList = false ∧
    getJobConfig.walk rootAndHomeEnv (strings.Split (filepath.Dir "/data/x.csv".toList) '/') 1
      = [] ∧
    filepath.Join [strings.Join ((strings.Split (filepath.Dir "/data/x.csv".toList) '/').take 1)
      ['/'], ".hero".toList] = ".hero".toList ∧
    getJobConfig.locate rootAndHomeEnv "/data/x.csv".toList alice
      = some "/home/alice/.hero".toList ∧
    getJobConfig rootAndHomeEnv "/data/x.csv".toList (some alice)
      = .ok { Hero := [("home".toList, anyFileJob)] } := by
  refine ⟨by decide, by decide, by decide, by decide, by decide, by decide⟩

/-- C3 (the program differs): when `/data/.hero` exists and cannot be read, or
is not well-formed YAML, `getJobConfig` returns the error and `CreateJob`
returns the empty path with a nil error. -/
theorem C3_config_error_swallowed :
    getJobConfig unreadableEnv "/data/x.csv".toList (some alice)
      = .err "open /data/.hero: permission denied".toList ∧
    CreateJob unreadableEnv "/data/x.csv".toList FILE_EDIT (some alice) (some tmpCfg) = .ok [] ∧
    getJobConfig malformedEnv "/data/x.csv".toList (some alice)
      = .err "yaml: unmarshal errors".toList ∧
    CreateJob malformedEnv "/data/x.csv".toList FILE_EDIT (some alice) (some tmpCfg) = .ok [] := by
  refine ⟨by decide, by decide, by decide, by decide⟩

/-- C4 (the program differs): when the write of the script fails, `CreateJob`
still returns the script path with a nil error. -/
theorem C4_write_error_ignored :
    (∀ data, diskFullEnv.write "/tmp/e1_1700000000.sh".toList data
      = some "write: no space left on device".toList) ∧
    CreateJob diskFullEnv "/data/x.csv".toList FILE_ADD (some alice) (some tmpCfg)
      = .ok "/tmp/e1_1700000000.sh".toList := by
  refine ⟨fun _ => rfl, by decide⟩

/-- C5 (the program differs): with script directory `/tmp`, `CallJob` runs
`sbatch` on `/tmpx/job.sh`, which is in the sibling directory `/tmpx` and not
under `/tmp`. -/
theorem C5_sibling_directory_accepted :
    filepath.under tmpCfg.ScriptDir "/tmpx/job.sh".toList = false ∧
    CallJob anyFileEnv "/tmpx/job.sh".toList alice (some tmpCfg)
      = .ran "/tmpx/job.sh".toList none := by
  refine ⟨by decide, by decide⟩

/-! ## Claims about the selection loop -/

theorem CreateJob.not_skipped_of_methodOK (method : METHOD) (exp : HeroJob)
    (h : CreateJob.methodOK method exp = true) : CreateJob.skipped method exp = false := by
  cases hm : exp.Methods with
  | nil => simpa [CreateJob.methodOK, CreateJob.skipped, hm] using h
  | cons m ms => simp [CreateJob.skipped, hm]

/-- With a single entry of non-empty name that passes the empty-methods check,
the entry is selected exactly when its rule loop answers `true`. -/
theorem CreateJob.selects_single (env : Env) (method : METHOD) (fullPath : Str) (name : Str)
    (exp : HeroJob) (hn : name ≠ []) (hs : CreateJob.skipped method exp = false) :
    CreateJob.selects env method fullPath { Hero := [(name, exp)] } name exp ↔
      CreateJob.rules env fullPath exp.Rules = .ok true := by
  unfold CreateJob.selects CreateJob.select
  rw [CreateJob.loop_visit env method fullPath name exp [] _ hs]
  cases hr : CreateJob.rules env fullPath exp.Rules with
  | panic => simp
  | err e => simp
  | ok b =>
    cases b with
    | true => simp [CreateJob.loop, hn]
    | false =>
      simp only [CreateJob.loop, Res.ok.injEq, Prod.mk.injEq]
      constructor
      · rintro ⟨⟨h1, _⟩, _⟩
        exact absurd h1.symm hn
      · intro h
        cases h

/-- C6: an experiment whose `methods` list is empty is never the selected
experiment when the event kind is not `add`, whatever its rules are: in any
config and at any position the loop passes over it without evaluating its
rules, so the loop ends as if the entry were not there. -/
theorem C6_empty_methods_only_add (env : Env) (method : METHOD) (fullPath : Str)
    (name : Str) (exp : HeroJob) (hm : exp.Methods = []) (hk : method ≠ FILE_ADD) :
    (∀ jcfg : HeroConfig, ¬ CreateJob.selects env method fullPath jcfg name exp) ∧
    (∀ (before after : List (Str × HeroJob)) (sel : Str × HeroJob),
      CreateJob.loop env method fullPath (before ++ (name, exp) :: after) sel
        = CreateJob.loop env method fullPath (before ++ after) sel) := by
  have hs : CreateJob.skipped method exp = true := by
    simp [CreateJob.skipped, hm, hk]
  refine ⟨?_, CreateJob.loop_insert_skipped env method fullPath name exp hs⟩
  rintro jcfg ⟨hsel, hn⟩
  rcases CreateJob.loop_result env method fullPath jcfg.Hero _ _ hsel with h | ⟨_, h⟩
  · exact hn (congrArg Prod.fst h)
  · simp [hs] at h

/-- C6 at an input: `e1` has no `methods` and the rule `.`, which matches
`/data/x.csv`; on the event `edit` it is not selected. -/
theorem C6_empty_methods_only_add_witness :
    anyFileJob.Methods = [] ∧ FILE_EDIT ≠ FILE_ADD ∧
    CreateJob.ruleMatches anyFileEnv "/data/x.csv".toList ".".toList = true ∧
    ¬ CreateJob.selects anyFileEnv FILE_EDIT "/data/x.csv".toList
        { Hero := [("e1".toList, anyFileJob)] } "e1".toList anyFileJob :=
  ⟨rfl, by decide, by decide,
    (C6_empty_methods_only_add anyFileEnv FILE_EDIT "/data/x.csv".toList "e1".toList anyFileJob
      rfl (by decide)).1 _⟩

/-- C9 as stated fails: `e1` has no `methods` and the rules `(` and `\.csv$`;
on the event `add` for `/data/x.csv` the entry is eligible and its second rule
matches the path, but compiling the first rule panics, so `e1` is not
selected. -/
theorem C9_malformed_rule_before_match :
    CreateJob.methodOK FILE_ADD malformedFirstJob = true ∧
    (∃ r ∈ malformedFirstJob.Rules,
      CreateJob.ruleMatches (dataEnv { Hero := [("e1".toList, malformedFirstJob)] })
        "/data/x.csv".toList r = true) ∧
    ¬ CreateJob.selects (dataEnv { Hero := [("e1".toList, malformedFirstJob)] }) FILE_ADD
        "/data/x.csv".toList { Hero := [("e1".toList, malformedFirstJob)] } "e1".toList
        malformedFirstJob ∧
    CreateJob (dataEnv { Hero := [("e1".toList, malformedFirstJob)] }) "/data/x.csv".toList
      FILE_ADD (some alice) (some tmpCfg) = .panic := by
  refine ⟨by decide, ⟨"\\.csv$".toList, by decide, by decide⟩, ?_, by decide⟩
  unfold CreateJob.selects
  decide

/-- C9, amended: a config holds the single experiment `name`, `name` is not
empty and the experiment is eligible for the event kind.  The experiment is
selected iff some pattern of its rules list matches the path and every pattern
before it is well-formed (and does not match); so when all patterns of the
list are well-formed, it is selected iff at least one of them matches,
whatever its position. -/
theorem C9_single_experiment_any_rule (env : Env) (method : METHOD) (fullPath : Str)
    (name : Str) (exp : HeroJob) (hn : name ≠ [])
    (helig : CreateJob.methodOK method exp = true) :
    (CreateJob.selects env method fullPath { Hero := [(name, exp)] } name exp ↔
      ∃ pre r post, exp.Rules = pre ++ r :: post ∧
        (∀ q ∈ pre, ∃ re, env.regexp q = some re ∧ re fullPath = false) ∧
        CreateJob.ruleMatches env fullPath r = true) ∧
    ((∀ r ∈ exp.Rules, (env.regexp r).isSome = true) →
      (CreateJob.selects env method fullPath { Hero := [(name, exp)] } name exp ↔
        ∃ r ∈ exp.Rules, CreateJob.ruleMatches env fullPath r = true)) := by
  have hs := CreateJob.not_skipped_of_methodOK method exp helig
  have hsel := CreateJob.selects_single env method fullPath name exp hn hs
  refine ⟨hsel.trans (CreateJob.rules_true_iff env fullPath exp.Rules), ?_⟩
  intro hwf
  rw [hsel, CreateJob.rules_of_wellformed env fullPath exp.Rules hwf]
  simp

/-- C9, amended, at an input: with the rules `\.txt$` and `\.csv$`, in this
order, the path `/data/x.csv` matches the second rule only, and the experiment
is selected. -/
theorem C9_single_experiment_any_rule_witness :
    CreateJob.ruleMatches anyFileEnv "/data/x.csv".toList "\\.txt$".toList = false ∧
    CreateJob.ruleMatches anyFileEnv "/data/x.csv".toList "\\.csv$".toList = true ∧
    CreateJob.selects anyFileEnv FILE_ADD "/data/x.csv".toList
      { Hero := [("e1".toList, txtOrCsvJob)] } "e1".toList txtOrCsvJob :=
  ⟨by decide, by decide,
    ((C9_single_experiment_any_rule anyFileEnv FILE_ADD "/data/x.csv".toList "e1".toList
      txtOrCsvJob (by decide) (by decide)).2 (by decide)).2
      ⟨"\\.csv$".toList, by decide, by decide⟩⟩

/-- C10 as stated fails: the loop visits `e1` (rule `\.csv$`) and then `e2`
(rules `(` and `\.csv$`); both have a rule matching `/data/x.csv` and none is
skipped, `e2` is the last of them, but compiling the first rule of `e2`
panics and no experiment is used. -/
theorem C10_panic_before_last_match :
    (CreateJob.matching (dataEnv { Hero := [("e1".toList, csvJob), ("e2".toList, malformedFirstJob)] })
      FILE_ADD "/data/x.csv".toList
      [("e1".toList, csvJob), ("e2".toList, malformedFirstJob)]).getLast?
      = some ("e2".toList, malformedFirstJob) ∧
    CreateJob.select (dataEnv { Hero := [("e1".toList, csvJob), ("e2".toList, malformedFirstJob)] })
      FILE_ADD "/data/x.csv".toList
      { Hero := [("e1".toList, csvJob), ("e2".toList, malformedFirstJob)] } = .panic ∧
    CreateJob (dataEnv { Hero := [("e1".toList, csvJob), ("e2".toList, malformedFirstJob)] })
      "/data/x.csv".toList FILE_ADD (some alice) (some tmpCfg) = .panic := by
  refine ⟨by decide, by decide, by decide⟩

/-- C10, amended: take the entries in visiting order and suppose that no
malformed pattern is met (the rule loop of no visited entry panics).  Then the
loop does not stop at the first entry that has a matching rule and is not
skipped by the empty-methods check: it ends with the last such entry, and
`CreateJob` goes on with that entry, or returns the empty path with a nil
error when there is no such entry or the name of the last one is empty. -/
theorem C10_last_matching_entry (env : Env) (file : Str) (method : METHOD)
    (user : Option HeroUser) (cfg : Option HeroGlobalConfig) (fullPath : Str)
    (jcfg : HeroConfig)
    (hAbs : filepath.Abs env.getwd file = .ok fullPath)
    (hCfg : getJobConfig env fullPath user = .ok jcfg)
    (hnp : ∀ e ∈ jcfg.Hero, CreateJob.skipped method e.2 = false →
      CreateJob.rules env fullPath e.2.Rules ≠ .panic) :
    CreateJob.select env method fullPath jcfg
      = .ok ((CreateJob.matching env method fullPath jcfg.Hero).getLast?.getD ([], {})) ∧
    CreateJob env file method user cfg
      = match (CreateJob.matching env method fullPath jcfg.Hero).getLast? with
        | none => .ok []
        | some (name, job) =>
          if name = [] then .ok []
          else CreateJob.emit env method fullPath name job user cfg := by
  have hsel : CreateJob.select env method fullPath jcfg
      = .ok ((CreateJob.matching env method fullPath jcfg.Hero).getLast?.getD ([], {})) :=
    CreateJob.loop_last env method fullPath jcfg.Hero _ hnp
  refine ⟨hsel, ?_⟩
  unfold CreateJob
  simp only [hAbs, hCfg, hsel]
  cases (CreateJob.matching env method fullPath jcfg.Hero).getLast? with
  | none => simp
  | some e => rfl

/-- C10, amended, at two inputs: with `e1` and then `e2` both matching, the
script is the one of `e2`; with `e1` and then the entry of empty name both
matching, the result is the empty path with a nil error. -/
theorem C10_last_matching_entry_witness :
    CreateJob (dataEnv { Hero := [("e1".toList, csvJob), ("e2".toList, anyFileJob)] })
      "/data/x.csv".toList FILE_ADD (some alice) (some tmpCfg)
      = .ok "/tmp/e2_1700000000.sh".toList ∧
    CreateJob (dataEnv { Hero := [("e1".toList, csvJob), ([], anyFileJob)] })
      "/data/x.csv".toList FILE_ADD (some alice) (some tmpCfg) = .ok [] :=
  ⟨(C10_last_matching_entry
      (dataEnv { Hero := [("e1".toList, csvJob), ("e2".toList, anyFileJob)] })
      "/data/x.csv".toList FILE_ADD (some alice) (some tmpCfg) "/data/x.csv".toList
      { Hero := [("e1".toList, csvJob), ("e2".toList, anyFileJob)] }
      (by rfl) (by decide) (by decide)).2.trans (by decide),
   (C10_last_matching_entry
      (dataEnv { Hero := [("e1".toList, csvJob), ([], anyFileJob)] })
      "/data/x.csv".toList FILE_ADD (some alice) (some tmpCfg) "/data/x.csv".toList
      { Hero := [("e1".toList, csvJob), ([], anyFileJob)] }
      (by rfl) (by decide) (by decide)).2.trans (by decide)⟩

/-! ## Claims about the rendered script -/

/-- C7 as stated fails: the experiment has no `queue` and the command
`#SBATCH --partition=gpu`; the rendered script has the line
`#SBATCH --partition=gpu`, written by the `range` block. -/
theorem C7_directive_line_from_command :
    directiveInCommandJob.Queue = [] ∧
    ∃ script,
      getScript anyFileEnv FILE_ADD "/data/x.csv".toList "e1".toList directiveInCommandJob
        (some alice) = .ok script ∧
      directiveLines "#SBATCH --partition=".toList script = ["#SBATCH --partition=gpu".toList] := by
  refine ⟨rfl, _, rfl, ?_⟩
  decide

/-- C7, amended: suppose the commands render, no value written on a line of
its own template text (experiment name, file path, queue, time, user name,
event kind, creation time) holds a newline, and no line of a rendered command
begins with `#SBATCH --`.  Then `getScript` returns a script whose lines
beginning with `#SBATCH --partition=` are the single line with `Queue` when
`Queue` is not empty and none otherwise, and likewise for
`#SBATCH --cpus-per-task=` with `Cpus` not zero, `#SBATCH --mem=` with `Mem`
not zero (the value followed by `G`) and `#SBATCH --time=` with `Time` not
empty. -/
theorem C7_optional_directives (env : Env) (method : METHOD) (file experiment : Str)
    (job : HeroJob) (user : HeroUser) (scripts : List Str)
    (hscripts : getScripts env file experiment job = .ok scripts)
    (hexp : '\n' ∉ experiment) (hfile : '\n' ∉ file) (hqueue : '\n' ∉ job.Queue)
    (htime : '\n' ∉ job.Time) (hname : '\n' ∉ user.Name) (hmethod : '\n' ∉ method)
    (hnow : '\n' ∉ env.now)
    (hS : ∀ sc ∈ scripts, directiveLines "#SBATCH --".toList sc = []) :
    ∃ script, getScript env method file experiment job (some user) = .ok script ∧
      directiveLines "#SBATCH --partition=".toList script
        = (if job.Queue = [] then [] else ["#SBATCH --partition=".toList ++ job.Queue]) ∧
      directiveLines "#SBATCH --cpus-per-task=".toList script
        = (if job.Cpus = 0 then []
           else ["#SBATCH --cpus-per-task=".toList ++ decimal job.Cpus]) ∧
      directiveLines "#SBATCH --mem=".toList script
        = (if job.Mem = 0 then []
           else ["#SBATCH --mem=".toList ++ (decimal job.Mem ++ "G".toList)]) ∧
      directiveLines "#SBATCH --time=".toList script
        = (if job.Time = [] then [] else ["#SBATCH --time=".toList ++ job.Time]) := by
  have hdir := filepath.Dir_no_newline file hfile
  have hS' : ∀ p : Str, "#SBATCH --".toList <+: p →
      ∀ sc ∈ scripts, directiveLines p sc = [] :=
    fun p hp sc hsc => directiveLines_longer _ p sc hp (hS sc hsc)
  let exp : HeroExperiment :=
    { User := some user, Experiment := experiment, Created := env.now, File := file,
      Scripts := scripts, Cpus := job.Cpus, Mem := job.Mem, Time := job.Time,
      Queue := job.Queue, BaseDir := filepath.Dir file, Method := method }
  have hget : getScript env method file experiment job (some user)
      = .ok (unlines (templateLines (job.Queue != []) (job.Cpus != 0) (job.Mem != 0)
          (job.Time != []) user exp) (scriptTemplate.range scripts ++ ['\n'])) := by
    unfold getScript
    rw [hscripts]
    simp only []
    rw [scriptTemplate_eq_unlines _ user rfl]
  have hpart := directiveLines_script _ _ exp user (hits_partition _ _ _ _ _ _) rfl (by decide)
    hexp hdir hfile hqueue htime hname hnow hmethod (hS' _ ⟨"partition=".toList, rfl⟩)
  have hcpus := directiveLines_script _ _ exp user (hits_cpus _ _ _ _ _ _) rfl (by decide)
    hexp hdir hfile hqueue htime hname hnow hmethod (hS' _ ⟨"cpus-per-task=".toList, rfl⟩)
  have hmem := directiveLines_script _ _ exp user (hits_mem _ _ _ _ _ _) rfl (by decide)
    hexp hdir hfile hqueue htime hname hnow hmethod (hS' _ ⟨"mem=".toList, rfl⟩)
  have htm := directiveLines_script _ _ exp user (hits_time _ _ _ _ _ _) rfl (by decide)
    hexp hdir hfile hqueue htime hname hnow hmethod (hS' _ ⟨"time=".toList, rfl⟩)
  refine ⟨_, hget, ?_, ?_, ?_, ?_⟩
  · refine hpart.trans ?_
    by_cases h : job.Queue = [] <;> simp [exp, h, lineText, Piece.text]
  · refine hcpus.trans ?_
    by_cases h : job.Cpus = 0 <;> simp [exp, h, lineText, Piece.text]
  · refine hmem.trans ?_
    by_cases h : job.Mem = 0 <;> simp [exp, h, lineText, Piece.text]
  · refine htm.trans ?_
    by_cases h : job.Time = [] <;> simp [exp, h, lineText, Piece.text]

/-- C7, amended, at an input: with `queue: gpu`, `mem: 4` and neither `cpus`
nor `time`, the script has the partition line and the memory line and no
line for the other two. -/
theorem C7_optional_directives_witness :
    ∃ script,
      getScript anyFileEnv FILE_ADD "/data/x.csv".toList "e1".toList gpuJob (some alice)
        = .ok script ∧
      directiveLines "#SBATCH --partition=".toList script = ["#SBATCH --partition=gpu".toList] ∧
      directiveLines "#SBATCH --cpus-per-task=".toList script = [] ∧
      directiveLines "#SBATCH --mem=".toList script = ["#SBATCH --mem=4G".toList] ∧
      directiveLines "#SBATCH --time=".toList script = [] :=
  C7_optional_directives anyFileEnv FILE_ADD "/data/x.csv".toList "e1".toList gpuJob alice
    ["validate /data/x.csv".toList] (by decide) (by decide) (by decide) (by decide) (by decide)
    (by decide) (by decide) (by decide) (by decide)

/-! ## Claims about the script path -/

/-- A suffix without separator extends the last piece. -/
theorem strings.Split_append_suffix (a suf : Str) (c : Char) (h : c ∉ suf) :
    ∃ front last, strings.Split a c = front ++ [last] ∧
      strings.Split (a ++ suf) c = front ++ [last ++ suf] := by
  induction a with
  | nil => exact ⟨[], [], by simp [strings.Split], by simpa using strings.Split_of_not_mem suf c h⟩
  | cons x a ih =>
    obtain ⟨front, last, h1, h2⟩ := ih
    by_cases hx : x = c
    · exact ⟨[] :: front, last, by simp [strings.Split, hx, h1], by simp [strings.Split, hx, h2]⟩
    · cases front with
      | nil =>
        exact ⟨[], x :: last, by simp [strings.Split, hx, h1],
          by simp [strings.Split, hx, h2]⟩
      | cons f fs =>
        exact ⟨(x :: f) :: fs, last, by simp [strings.Split, hx, h1],
          by simp [strings.Split, hx, h2]⟩

/-- The script file name stays under a non-empty script directory when no
element of the experiment name before the last one is `..`. -/
theorem under_scriptName (dir experiment : Str) (ts : Int) (hD : dir ≠ [])
    (hmid : ∀ el ∈ (strings.Split experiment '/').dropLast, el ≠ ['.', '.']) :
    filepath.under dir
      (filepath.Join [dir, experiment ++ "_".toList ++ decimal ts ++ ".sh".toList]) = true := by
  have hsuf : '/' ∉ '_' :: (decimal ts ++ ".sh".toList) := by
    intro h
    rcases List.mem_cons.1 h with h | h
    · exact absurd h (by decide)
    · rcases List.mem_append.1 h with h | h
      · exact decimal_no_slash ts h
      · exact absurd h (by decide)
  have hname : experiment ++ "_".toList ++ decimal ts ++ ".sh".toList
      = experiment ++ '_' :: (decimal ts ++ ".sh".toList) := by
    simp [List.append_assoc]
  obtain ⟨front, last, h1, h2⟩ := strings.Split_append_suffix experiment _ '/' hsuf
  rw [hname]
  apply filepath.under_Join dir _ hD
  · rw [h2]
    rw [h1] at hmid
    simpa using hmid
  · rw [h2]
    intro el hel
    have : el = last ++ '_' :: (decimal ts ++ ".sh".toList) := by simpa using hel.symm
    subst this
    have hlen : 2 < (last ++ '_' :: (decimal ts ++ ".sh".toList)).length := by
      simp only [List.length_append, List.length_cons]
      have : (".sh".toList).length = 3 := rfl
      omega
    cases hl : last ++ '_' :: (decimal ts ++ ".sh".toList) with
    | nil => simp at hl
    | cons a r =>
      rw [hl] at hlen
      cases r with
      | nil => simp at hlen
      | cons b r =>
        cases r with
        | nil => simp at hlen
        | cons c r => simp [filepath.plain]

/-- The path `CreateJob` returns when it selects `experiment` and the script
renders: the join of the script directory with the file name made of the
experiment name, `_`, the Unix time in decimal and `.sh`.  That path lies under
the script directory when the directory is not the empty string and no
element of the experiment name before its last separator is `..`. -/
theorem CreateJob.script_path (env : Env) (file : Str) (method : METHOD)
    (user : Option HeroUser) (cfg : HeroGlobalConfig) (fullPath : Str) (jcfg : HeroConfig)
    (experiment : Str) (job : HeroJob) (script : Str)
    (hAbs : filepath.Abs env.getwd file = .ok fullPath)
    (hCfg : getJobConfig env fullPath user = .ok jcfg)
    (hsel : CreateJob.selects env method fullPath jcfg experiment job)
    (hscript : getScript env method fullPath experiment job user = .ok script) :
    CreateJob env file method user (some cfg)
      = .ok (filepath.Join
          [cfg.ScriptDir, experiment ++ "_".toList ++ decimal env.unix ++ ".sh".toList]) ∧
    (cfg.ScriptDir ≠ [] →
      (∀ el ∈ (strings.Split experiment '/').dropLast, el ≠ ['.', '.']) →
      filepath.under cfg.ScriptDir (filepath.Join
          [cfg.ScriptDir, experiment ++ "_".toList ++ decimal env.unix ++ ".sh".toList])
        = true) := by
  refine ⟨?_, fun hD hmid => under_scriptName cfg.ScriptDir experiment env.unix hD hmid⟩
  unfold CreateJob
  simp only [hAbs, hCfg, hsel.1, hsel.2, if_false]
  unfold CreateJob.emit
  simp only [hscript]

/-- The script path at an input: `e1` is selected for `/data/x.csv` at Unix
time 1700000000 with script directory `/tmp`; the path returned is
`/tmp/e1_1700000000.sh`, under `/tmp`. -/
theorem CreateJob.script_path_example :
    CreateJob (dataEnv { Hero := [("e1".toList, csvJob)] }) "/data/x.csv".toList FILE_ADD
        (some alice) (some tmpCfg) = .ok "/tmp/e1_1700000000.sh".toList ∧
    filepath.under tmpCfg.ScriptDir "/tmp/e1_1700000000.sh".toList = true :=
  have h := CreateJob.script_path (dataEnv { Hero := [("e1".toList, csvJob)] })
    "/data/x.csv".toList FILE_ADD (some alice) tmpCfg "/data/x.csv".toList
    { Hero := [("e1".toList, csvJob)] } "e1".toList csvJob
    (match getScript (dataEnv { Hero := [("e1".toList, csvJob)] }) FILE_ADD
        "/data/x.csv".toList "e1".toList csvJob (some alice) with
      | .ok s => s
      | _ => [])
    (by rfl) (by decide) ⟨by decide, by decide⟩ (by rfl)
  ⟨h.1, h.2 (by decide) (by decide)⟩

/-- C8 (the program differs): `/data/.hero` declares the experiment
`../etc/e1`; with script directory `/tmp` the path `CreateJob` returns for
`/data/x.csv` is the join of `/tmp` with `../etc/e1_1700000000.sh`, that is
`/etc/e1_1700000000.sh`, which does not lie under `/tmp`; `CallJob` then
refuses the path `CreateJob` returned, as not in `/tmp`. -/
theorem C8_name_leaves_script_directory :
    CreateJob.selects dotdotNameEnv FILE_ADD "/data/x.csv".toList
      { Hero := [("../etc/e1".toList, csvJob)] } "../etc/e1".toList csvJob ∧
    CreateJob dotdotNameEnv "/data/x.csv".toList FILE_ADD (some alice) (some tmpCfg)
      = .ok "/etc/e1_1700000000.sh".toList ∧
    filepath.Join [tmpCfg.ScriptDir, "../etc/e1_1700000000.sh".toList]
      = "/etc/e1_1700000000.sh".toList ∧
    filepath.under tmpCfg.ScriptDir "/etc/e1_1700000000.sh".toList = false ∧
    CallJob dotdotNameEnv "/etc/e1_1700000000.sh".toList alice (some tmpCfg)
      = .refused "script not in /tmp".toList := by
  refine ⟨⟨by decide, by decide⟩, by decide, by decide, by decide, by decide⟩

end Heroonprem
